import Mathlib

/-!
# ASCIIMage: the pixel-to-glyph and pixel-to-colour pipeline

A shallow embedding of `asciimage.cpp` (the row-batched program), `asciimage_loop.cpp`
(the per-cell program) and the colour declarations of `winsole/winsole.hpp`.

Conventions of the embedding.

* A C++ `float` is the rational number it holds; every arithmetic operation and every
  conversion to `float` rounds to the nearest binary32 value, ties to even (`fl`), as
  single-precision arithmetic without excess precision does. Infinities and NaN are not
  represented: the only division in the program is by `255 - 0`, and every value stays
  below `2^128`.
* C++ operations whose behaviour is undefined (an array read past its end, a `float`
  that does not fit the integer type it is converted to) end the run with a `Fault`.
* `std::string` is a list of characters, a C++ `char` is the Lean character with the
  same ASCII code.
* `Image` keeps the two fields the renderers read; `width * height` is taken without
  `int` overflow, which the image decoder guarantees for every image it returns.
* The console is the list of write calls it receives.
-/

namespace ASCIIMage

/-! ## Undefined behaviour -/

/-- The ways a run of the embedded code can leave defined C++ behaviour. -/
inductive Fault where
  /-- the read `colors[i]` lies past the end of the sample array -/
  | colorsOutOfRange (i : ℕ)
  /-- a `float` outside `[0, 255]` is converted to `byte` -/
  | floatToByte
  /-- a `float` outside `[0, 2^64)` is converted to `size_t` -/
  | floatToSize
  /-- the read `s[i]` on a `std::string` with `i > s.size()` -/
  | stringOutOfRange (i : ℕ)
  /-- the read `v[i]` on a `std::vector` with `i >= v.size()` -/
  | vectorOutOfRange (i : ℕ)
  /-- the read `str_args[i]` of a command-line position that holds no argument -/
  | argOutOfRange (i : ℕ)
  deriving DecidableEq, Repr

/-! ## binary32 arithmetic -/

/-- Exponent of the unit in the last place of the binary32 binade that holds `q`
(24-bit significand, least normal exponent `-126`). -/
def ulpExp (q : ℚ) : ℤ := max (Int.log 2 |q|) (-126) - 23

/-- Nearest integer, ties to the even one. -/
def roundEven (x : ℚ) : ℤ :=
  if x - ⌊x⌋ < 1 / 2 then ⌊x⌋
  else if 1 / 2 < x - ⌊x⌋ then ⌊x⌋ + 1
  else if ⌊x⌋ % 2 = 0 then ⌊x⌋ else ⌊x⌋ + 1

/-- Rounding of an exact result to binary32 (round to nearest, ties to even). -/
def fl (q : ℚ) : ℚ := roundEven (q / 2 ^ ulpExp q) * 2 ^ ulpExp q

/-- The `float` sum `a + b`. -/
def fadd (a b : ℚ) : ℚ := fl (a + b)

/-- The `float` difference `a - b`. -/
def fsub (a b : ℚ) : ℚ := fl (a - b)

/-- The `float` product `a * b`. -/
def fmul (a b : ℚ) : ℚ := fl (a * b)

/-- The `float` quotient `a / b` (the program only divides by `255`). -/
def fdiv (a b : ℚ) : ℚ := fl (a / b)

/-- Conversion of a non-negative integer (`byte`, `int` literal, `size_t`) to `float`. -/
def to_float (n : ℕ) : ℚ := fl (n : ℚ)

/-- Truncation toward zero, the integer part a `float` to integer conversion keeps. -/
def trunc (x : ℚ) : ℤ := if 0 ≤ x then ⌊x⌋ else ⌈x⌉

/-- Conversion `float` to `byte` (`unsigned char`): the value is truncated toward zero, and
the behaviour is undefined when the truncated value is not in `[0, 255]`. -/
def float_to_byte (x : ℚ) : Except Fault ℕ :=
  if 0 ≤ trunc x ∧ trunc x ≤ 255 then .ok (trunc x).toNat else .error .floatToByte

/-- Conversion `static_cast<size_t>(float)`: the value is truncated toward zero, and the
behaviour is undefined when the truncated value is not in `[0, 2^64)`. -/
def float_to_size (x : ℚ) : Except Fault ℕ :=
  if 0 ≤ trunc x ∧ trunc x < 2 ^ 64 then .ok (trunc x).toNat else .error .floatToSize

/-- The `size_t` expression `n - 1` (wraps to `2^64 - 1` at `n = 0`). -/
def size_sub_one (n : ℕ) : ℕ := (n + 2 ^ 64 - 1) % 2 ^ 64

/-- `float map(float input, float x1, float x2, float y1, float y2)`:
`y1 + (input - x1) * (y2 - y1) / (x2 - x1)`. -/
def map (input x1 x2 y1 y2 : ℚ) : ℚ :=
  fadd y1 (fdiv (fmul (fsub input x1) (fsub y2 y1)) (fsub x2 x1))

/-! ## `winsole.hpp`: colours -/

/-- `enum Color`: a colour is the integer value of its enumerator; `static_cast<Color>`
of an `int` keeps the integer. -/
abbrev Color := ℤ

def BLACK : Color := 0
def BLUE : Color := 1
def GREEN : Color := 2
def AQUA : Color := 3
def RED : Color := 4
def PURPLE : Color := 5
def YELLOW : Color := 6
def WHITE : Color := 7
def GRAY : Color := 8
def GREY : Color := GRAY
def LIGHT_BLUE : Color := 9
def LIGHT_GREEN : Color := 10
def LIGHT_AQUA : Color := 11
def LIGHT_RED : Color := 12
def LIGHT_PURPLE : Color := 13
def LIGHT_YELLOW : Color := 14
def LIGHT_WHITE : Color := 15
def AUTO : Color := 16

/-- `struct COLORS`: foreground and background selection of one cell. -/
structure COLORS where
  fore : Color
  back : Color
  deriving DecidableEq, Repr

/-- Modelled from the spec: `WinPixel` is used by `asciimage.cpp` and declared nowhere in
`winsole.hpp`. It is the rendered cell of the specification, a display glyph with a
foreground and a background colour selection; the code builds it as
`{ch, {fore, back}}`. -/
structure WinPixel where
  ch : Char
  colors : COLORS
  deriving DecidableEq, Repr

/-- Modelled from the spec: `Winsole::put_line` is called by `asciimage.cpp` and declared
nowhere in `winsole.hpp`. It is the row-write operation of the specification, which takes
a sequence of cells and a target row and writes `width` cells at once. One call
`winsole.put_line(x, y, &pixels[y * w], w)` is recorded with the `w` cells it is handed. -/
structure PutLine where
  x : ℕ
  y : ℕ
  cells : List WinPixel
  deriving DecidableEq, Repr

/-- The writes of the per-cell program: the calls `putchar(c)` and
`winsole.put(c, colors)`, in the order they are made. -/
inductive ConsoleOp where
  | putchar (c : Char)
  | put (c : Char) (colors : COLORS)
  deriving DecidableEq, Repr

/-! ## `RGBA` and `Image` -/

/-- `typedef unsigned char byte`. -/
abbrev byte := Fin 256

/-- `struct RGBA`. -/
structure RGBA where
  r : byte
  g : byte
  b : byte
  a : byte
  deriving DecidableEq, Repr

/-- `RGBA::max_value`. -/
def RGBA.max_value (c : RGBA) : byte :=
  if c.r > c.g then (if c.r > c.b then c.r else c.b) else (if c.g > c.b then c.g else c.b)

/-- `RGBA::min_value`. -/
def RGBA.min_value (c : RGBA) : byte :=
  if c.r < c.g then (if c.r < c.b then c.r else c.b) else (if c.g < c.b then c.g else c.b)

/-- The line `byte grey = (colors[ci].max_value() + colors[ci].min_value()) / 2;`: the two
bytes are added as `int`, halved, and the result is stored in a `byte`. -/
def grey (c : RGBA) : ℕ := (c.max_value.val + c.min_value.val) / 2 % 256

/-- `struct Image`, the fields the renderers read. -/
structure Image where
  width : ℕ
  height : ℕ
  deriving DecidableEq, Repr

/-- `Image::image_size`. -/
def Image.image_size (image : Image) : ℕ := image.width * image.height

/-! ## Array reads -/

/-- The line break `'\n'`. -/
def LF : Char := Char.ofNat 10

/-- The terminator `'\0'` a `std::string` holds at position `size()`. -/
def NUL : Char := Char.ofNat 0

/-- The read `colors[i]` of the sample array. -/
def colors_at (colors : List RGBA) (i : ℕ) : Except Fault RGBA :=
  match colors[i]? with
  | some c => .ok c
  | none => .error (.colorsOutOfRange i)

/-- The read `s[i]` of a `const std::string`: position `size()` holds the terminator. -/
def string_at (s : List Char) (i : ℕ) : Except Fault Char :=
  match s[i]? with
  | some c => .ok c
  | none => if i = s.length then .ok NUL else .error (.stringOutOfRange i)

/-- The read `v[i]` of a `std::vector`. -/
def vector_at {α : Type} (v : List α) (i : ℕ) : Except Fault α :=
  match v[i]? with
  | some c => .ok c
  | none => .error (.vectorOutOfRange i)

/-! ## `ascii_image` (the same function in both programs) -/

/-- The line `byte index = map(grey, 0, 255, 0, ascii_map.length() - 1);`. -/
def glyph_index (grey : ℕ) (length : ℕ) : Except Fault ℕ :=
  float_to_byte (map (to_float grey) (to_float 0) (to_float 255) (to_float 0)
    (to_float (size_sub_one length)))

/-- One round of the loop of `ascii_image`; the state is `(row, ascii_output)`. -/
def ascii_image_body (image : Image) (colors : List RGBA) (ascii_map : List Char)
    (st : ℕ × List Char) (ci : ℕ) : Except Fault (ℕ × List Char) := do
  let c ← colors_at colors ci
  let index ← glyph_index (grey c) ascii_map.length
  let st1 := if ci ≥ st.1 * image.width then (st.1 + 1, st.2 ++ [LF]) else st
  let ch ← string_at ascii_map index
  pure (st1.1, st1.2 ++ [ch])

/-- `std::string ascii_image(const Image&, RGBA*&, const std::string&)`. -/
def ascii_image (image : Image) (colors : List RGBA) (ascii_map : List Char) :
    Except Fault (List Char) := do
  let st ← (List.range image.image_size).foldlM (ascii_image_body image colors ascii_map) (1, [])
  pure st.2

/-! ## The colour renderers -/

/-- The expression `static_cast<size_t>(map(grey, 0, 255, 0, map_size - 1))`. -/
def color_index (grey : ℕ) (map_size : ℕ) : Except Fault ℕ :=
  float_to_size (map (to_float grey) (to_float 0) (to_float 255) (to_float 0)
    (to_float (size_sub_one map_size)))

/-- The cells `&pixels[off]`, `count` of them, that `put_line` is handed. -/
def pixels_slice (pixels : List WinPixel) (off count : ℕ) : Except Fault (List WinPixel) :=
  if off < pixels.length ∧ off + count ≤ pixels.length then .ok ((pixels.drop off).take count)
  else .error (.vectorOutOfRange off)

/-- The closing loop of both row-batched renderers:
`for(size_t y = 0; y < h; ++y) winsole.put_line(0, y, &pixels[y * w], w);`. -/
def put_lines (image : Image) (pixels : List WinPixel) : Except Fault (List PutLine) :=
  (List.range image.height).foldlM (fun out y => do
    let cells ← pixels_slice pixels (y * image.width) image.width
    pure (out ++ [PutLine.mk 0 y cells])) []

/-- One round of the first loop of `print_color_image_fast`; the state is `pixels`. -/
def print_color_image_fast_body (colors : List RGBA) (colormap : List Color)
    (pixels : List WinPixel) (i : ℕ) : Except Fault (List WinPixel) := do
  let c ← colors_at colors i
  let index ← color_index (grey c) colormap.length
  let color ← vector_at colormap index
  pure (pixels ++ [WinPixel.mk ' ' (COLORS.mk AUTO color)])

/-- `print_color_image_fast` of `asciimage.cpp`; the result is the list of `put_line`
calls. -/
def print_color_image_fast (image : Image) (colors : List RGBA) (colormap : List Color) :
    Except Fault (List PutLine) := do
  let pixels ← (List.range image.image_size).foldlM
    (print_color_image_fast_body colors colormap) []
  put_lines image pixels

/-- One round of the walk `for(char ch : ascii_image)` of `print_color_ascii_fast`; the
state is `(ci, pixels)`. -/
def print_color_ascii_fast_body (colors : List RGBA) (colormap : List Color)
    (st : ℕ × List WinPixel) (ch : Char) : Except Fault (ℕ × List WinPixel) :=
  if ch = LF then pure st
  else do
    let c ← colors_at colors st.1
    let index ← color_index (grey c) colormap.length
    let color ← vector_at colormap index
    pure (st.1 + 1, st.2 ++ [WinPixel.mk ch (COLORS.mk color AUTO)])

/-- The walk of `print_color_ascii_fast` over the text buffer: the final pixel index `ci`
and the cells built. -/
def print_color_ascii_fast_walk (ascii_image : List Char) (colors : List RGBA)
    (colormap : List Color) : Except Fault (ℕ × List WinPixel) :=
  ascii_image.foldlM (print_color_ascii_fast_body colors colormap) (0, [])

/-- `print_color_ascii_fast` of `asciimage.cpp`; the result is the list of `put_line`
calls. -/
def print_color_ascii_fast (ascii_image : List Char) (colors : List RGBA) (image : Image)
    (colormap : List Color) : Except Fault (List PutLine) := do
  let st ← print_color_ascii_fast_walk ascii_image colors colormap
  put_lines image st.2

/-- One round of the loop of `print_color_image` (`asciimage_loop.cpp`); the state is
`(row, console writes so far)`. -/
def print_color_image_body (image : Image) (colors : List RGBA) (colormap : List Color)
    (st : ℕ × List ConsoleOp) (ci : ℕ) : Except Fault (ℕ × List ConsoleOp) := do
  let c ← colors_at colors ci
  let index ← color_index (grey c) colormap.length
  let color ← vector_at colormap index
  let st1 := if ci ≥ st.1 * image.width then (st.1 + 1, st.2 ++ [ConsoleOp.putchar LF]) else st
  pure (st1.1, st1.2 ++ [ConsoleOp.put ' ' (COLORS.mk AUTO color)])

/-- `print_color_image` of `asciimage_loop.cpp`; the result is the list of console
writes. -/
def print_color_image (image : Image) (colors : List RGBA) (colormap : List Color) :
    Except Fault (List ConsoleOp) := do
  let st ← (List.range image.image_size).foldlM (print_color_image_body image colors colormap)
    (1, [])
  pure st.2

/-- One round of the loop of `print_color_ascii` (`asciimage_loop.cpp`); the state is
`(ascii_index, console writes so far)`. On a line break the round ends with `continue`,
so the loop header still advances `ci`. -/
def print_color_ascii_body (ascii_image : List Char) (colors : List RGBA)
    (colormap : List Color) (st : ℕ × List ConsoleOp) (ci : ℕ) :
    Except Fault (ℕ × List ConsoleOp) := do
  let ch ← string_at ascii_image st.1
  if ch = LF then pure (st.1 + 2, st.2 ++ [ConsoleOp.putchar LF])
  else do
    let c ← colors_at colors ci
    let index ← color_index (grey c) colormap.length
    let color ← vector_at colormap index
    pure (st.1 + 1, st.2 ++ [ConsoleOp.put ch (COLORS.mk color AUTO)])

/-- `print_color_ascii` of `asciimage_loop.cpp`; the result is the list of console
writes. -/
def print_color_ascii (ascii_image : List Char) (colors : List RGBA) (image : Image)
    (colormap : List Color) : Except Fault (List ConsoleOp) := do
  let st ← (List.range image.image_size).foldlM
    (print_color_ascii_body ascii_image colors colormap) (0, [])
  pure st.2

/-! ## `main`: the choice of mode and maps -/

/-- `#define DEFAULT_ASCII " ._-3#@"`. -/
def DEFAULT_ASCII : List Char := [' ', '.', '_', '-', '3', '#', '@']

/-- The body of the decoding loop of `main`:
`(ch >= 'A' && ch <= 'F') ? static_cast<Color>((ch - 'A') + 10) : static_cast<Color>(ch - '0')`. -/
def decode_color (ch : Char) : Color :=
  if 'A'.toNat ≤ ch.toNat ∧ ch.toNat ≤ 'F'.toNat then ((ch.toNat : ℤ) - ('A'.toNat : ℤ)) + 10
  else (ch.toNat : ℤ) - ('0'.toNat : ℤ)

/-- The decoding loop of `main`: `for(char ch : str_args[2]) colormap.push_back(color)`. -/
def decode_colormap (s : List Char) : List Color :=
  s.foldl (fun colormap ch => colormap ++ [decode_color ch]) []

/-- The read `str_args[i]`. -/
def str_args_at (str_args : List (List Char)) (i : ℕ) : Except Fault (List Char) :=
  match str_args[i]? with
  | some s => .ok s
  | none => .error (.argOutOfRange i)

/-- What `main` hands to the renderers. -/
inductive Plan where
  /-- `print_help()` and `return 0` -/
  | help
  /-- `ascii_image` with this glyph map, then `fast_print` -/
  | ascii (ascii_map : List Char)
  /-- the block-colour renderer with this colour map -/
  | color (colormap : List Color)
  /-- `ascii_image` with this glyph map, then the tinting renderer with this colour map -/
  | ascol (ascii_map : List Char) (colormap : List Color)
  /-- a mode that is none of the three: nothing is drawn -/
  | nothing
  deriving DecidableEq, Repr

/-- What a run writes. -/
inductive Output where
  | help
  | text (buffer : List Char)
  | lines (calls : List PutLine)
  | console (ops : List ConsoleOp)
  | nothing
  deriving DecidableEq, Repr

/-- The opening of both `main` functions, from `argc -= 1` to
`if(argc == 1) str_args[1] = "ASCII";`; `args` is `argv[1], ..., argv[argc]`. The result is
`none` when the help text is printed and the run ends, else the array `str_args`. The
store to `str_args[1]` goes one slot past the array of `argc = 1` strings; the embedding
grants it that slot. -/
def str_args_of (args : List (List Char)) : Option (List (List Char)) :=
  if args.length = 0 then none
  else if args.any (fun s => s = ['-', 'h'] ∨ s = ['-', '-', 'h', 'e', 'l', 'p']) then none
  else if args.length = 1 then some (args ++ [['A', 'S', 'C', 'I', 'I']])
  else some args

namespace Asciimage

/-- `DEFAULT_COLOR_MAP` of `asciimage.cpp`. -/
def DEFAULT_COLOR_MAP : List Color :=
  [BLACK, BLACK, GREY, GREY, BLUE, LIGHT_BLUE, AQUA, LIGHT_AQUA, WHITE, WHITE]

/-- The choice of mode and maps in `main` of `asciimage.cpp` (the colour map is built
before the mode is compared with `COLOR` and `ASCOL`). -/
def main_plan (args : List (List Char)) : Except Fault Plan :=
  let argc := args.length
  match str_args_of args with
  | none => pure Plan.help
  | some str_args => do
    let mode ← str_args_at str_args 1
    if mode = ['A', 'S', 'C', 'I', 'I'] then
      let ascii_map ← if argc = 2 then pure DEFAULT_ASCII else str_args_at str_args 2
      pure (Plan.ascii ascii_map)
    else
      let colormap ← if argc = 2 then pure DEFAULT_COLOR_MAP
        else do
          let s ← str_args_at str_args 2
          pure (decode_colormap s)
      if mode = ['C', 'O', 'L', 'O', 'R'] then pure (Plan.color colormap)
      else if mode = ['A', 'S', 'C', 'O', 'L'] then
        let ascii_map ← if argc = 4 then str_args_at str_args 3 else pure DEFAULT_ASCII
        pure (Plan.ascol ascii_map colormap)
      else pure Plan.nothing

/-- `main` of `asciimage.cpp`, from the argument handling on, for an image that was read
as `image` with samples `colors` and a console that was initialised. -/
def main (args : List (List Char)) (image : Image) (colors : List RGBA) :
    Except Fault Output := do
  match ← main_plan args with
  | Plan.help => pure Output.help
  | Plan.ascii ascii_map => do
    let ascii_output ← ascii_image image colors ascii_map
    pure (Output.text ascii_output)
  | Plan.color colormap => do
    let calls ← print_color_image_fast image colors colormap
    pure (Output.lines calls)
  | Plan.ascol ascii_map colormap => do
    let ascii_output ← ascii_image image colors ascii_map
    let calls ← print_color_ascii_fast ascii_output colors image colormap
    pure (Output.lines calls)
  | Plan.nothing => pure Output.nothing

end Asciimage

namespace AsciimageLoop

/-- `DEFAULT_COLOR_MAP` of `asciimage_loop.cpp`. -/
def DEFAULT_COLOR_MAP : List Color :=
  [BLACK, BLACK, BLACK, GREY, GREY, BLUE, LIGHT_BLUE, AQUA, LIGHT_AQUA, WHITE, WHITE, WHITE]

/-- The choice of mode and maps in `main` of `asciimage_loop.cpp` (the colour map is built
inside `if(str_args[1] == "COLOR" || str_args[1] == "ASCOL")`). -/
def main_plan (args : List (List Char)) : Except Fault Plan :=
  let argc := args.length
  match str_args_of args with
  | none => pure Plan.help
  | some str_args => do
    let mode ← str_args_at str_args 1
    if mode = ['A', 'S', 'C', 'I', 'I'] then
      let ascii_map ← if argc = 2 then pure DEFAULT_ASCII else str_args_at str_args 2
      pure (Plan.ascii ascii_map)
    else if mode = ['C', 'O', 'L', 'O', 'R'] ∨ mode = ['A', 'S', 'C', 'O', 'L'] then
      let colormap ← if argc = 2 then pure DEFAULT_COLOR_MAP
        else do
          let s ← str_args_at str_args 2
          pure (decode_colormap s)
      if mode = ['C', 'O', 'L', 'O', 'R'] then pure (Plan.color colormap)
      else
        let ascii_map ← if argc = 4 then str_args_at str_args 3 else pure DEFAULT_ASCII
        pure (Plan.ascol ascii_map colormap)
    else pure Plan.nothing

/-- `main` of `asciimage_loop.cpp`, from the argument handling on, for an image that was
read as `image` with samples `colors` and a console that was initialised. -/
def main (args : List (List Char)) (image : Image) (colors : List RGBA) :
    Except Fault Output := do
  match ← main_plan args with
  | Plan.help => pure Output.help
  | Plan.ascii ascii_map => do
    let ascii_output ← ascii_image image colors ascii_map
    pure (Output.text ascii_output)
  | Plan.color colormap => do
    let ops ← print_color_image image colors colormap
    pure (Output.console ops)
  | Plan.ascol ascii_map colormap => do
    let ascii_output ← ascii_image image colors ascii_map
    let ops ← print_color_ascii ascii_output colors image colormap
    pure (Output.console ops)
  | Plan.nothing => pure Output.nothing

end AsciimageLoop

/-! ## Closed forms in which the properties are stated -/

/-- Sample `k` of the sample array (`k` below its length). -/
def pixel (colors : List RGBA) (k : ℕ) : RGBA := colors.getD k (RGBA.mk 0 0 0 0)

/-- The value of the loop variable `row` after `k` rounds over an image of width `w`. -/
def row_after (w k : ℕ) : ℕ := (k - 1) / w + 1

/-- The items `f 0, ..., f (k - 1)` in order, with `sep` put before every item whose index
is a positive multiple of `w`. -/
def with_breaks {α : Type} (w : ℕ) (sep : α) (f : ℕ → α) : ℕ → List α
  | 0 => []
  | k + 1 => with_breaks w sep f k ++ (if k ≠ 0 ∧ k % w = 0 then [sep] else []) ++ [f k]

/-- The `h` rows of `w` items of a row-major grid: row `y` holds `f (y * w + x)` for
`x = 0, ..., w - 1`. -/
def grid_rows {α : Type} (w h : ℕ) (f : ℕ → α) : List (List α) :=
  (List.range h).map (fun y => (List.range w).map (fun x => f (y * w + x)))

/-- The ramp index of a luminance: the integer part of `map(grey, 0, 255, 0, size - 1)`,
computed in `float` as the code computes it. -/
def map_index (grey size : ℕ) : ℕ :=
  (trunc (map (to_float grey) (to_float 0) (to_float 255) (to_float 0)
    (to_float (size_sub_one size)))).toNat

/-- The glyph of a sample: the entry of the glyph ramp at the ramp index of its
luminance. -/
def spec_glyph (ascii_map : List Char) (c : RGBA) : Char :=
  ascii_map.getD (map_index (grey c) ascii_map.length) NUL

/-- The colour of a sample: the entry of the colour ramp at the ramp index of its
luminance. -/
def spec_color (colormap : List Color) (c : RGBA) : Color :=
  colormap.getD (map_index (grey c) colormap.length) AUTO

/-- The cell of a sample in block-colour mode: a space on the sample's colour. -/
def spec_block_cell (colormap : List Color) (c : RGBA) : WinPixel :=
  WinPixel.mk ' ' (COLORS.mk AUTO (spec_color colormap c))

/-- The cell of a sample in ASCII-tinted mode: the sample's glyph in the sample's colour. -/
def spec_tint_cell (ascii_map : List Char) (colormap : List Color) (c : RGBA) : WinPixel :=
  WinPixel.mk (spec_glyph ascii_map c) (COLORS.mk (spec_color colormap c) AUTO)

/-- The characters the decoder of `main` maps into the palette `0..15`. -/
def palette_digit (ch : Char) : Prop :=
  ('0'.toNat ≤ ch.toNat ∧ ch.toNat ≤ '9'.toNat) ∨ ('A'.toNat ≤ ch.toNat ∧ ch.toNat ≤ 'F'.toNat)

instance (ch : Char) : Decidable (palette_digit ch) := by
  unfold palette_digit
  infer_instance

end ASCIIMage

/-! # Properties -/

namespace ASCIIMage

/-! ## binary32 rounding -/

theorem roundEven_intCast (m : ℤ) : roundEven (m : ℚ) = m := by
  simp [roundEven]

theorem roundEven_lower (x : ℚ) : x - 1 / 2 ≤ (roundEven x : ℚ) := by
  have h1 := Int.floor_le x
  have h2 := Int.lt_floor_add_one x
  unfold roundEven
  split_ifs <;> push_cast <;> linarith

theorem roundEven_upper (x : ℚ) : (roundEven x : ℚ) ≤ x + 1 / 2 := by
  have h1 := Int.floor_le x
  have h2 := Int.lt_floor_add_one x
  unfold roundEven
  split_ifs <;> push_cast <;> linarith

theorem floor_le_roundEven (x : ℚ) : ⌊x⌋ ≤ roundEven x := by
  unfold roundEven
  split_ifs <;> omega

theorem fl_zero : fl 0 = 0 := by
  simp [fl, roundEven]

theorem two_zpow_pos (e : ℤ) : (0 : ℚ) < 2 ^ e := by positivity

theorem fl_nonneg (z : ℚ) (hz : 0 ≤ z) : 0 ≤ fl z := by
  unfold fl
  have h1 : 0 ≤ z / 2 ^ ulpExp z := div_nonneg hz (two_zpow_pos _).le
  have h2 : (0 : ℤ) ≤ roundEven (z / 2 ^ ulpExp z) :=
    le_trans (Int.floor_nonneg.mpr h1) (floor_le_roundEven _)
  have h3 : (0 : ℚ) ≤ (roundEven (z / 2 ^ ulpExp z) : ℚ) := by exact_mod_cast h2
  exact mul_nonneg h3 (two_zpow_pos _).le

/-- A multiple of a power of two that is at least its own unit in the last place is a
binary32 value: rounding keeps it. -/
theorem fl_of_repr (w : ℚ) (m e : ℤ) (hw : w = (m : ℚ) * 2 ^ e) (h : ulpExp w ≤ e) :
    fl w = w := by
  obtain ⟨k, hk⟩ := Int.le.dest h
  have hpos := two_zpow_pos (ulpExp w)
  have hdiv : w / 2 ^ ulpExp w = ((m * 2 ^ k : ℤ) : ℚ) := by
    rw [div_eq_iff hpos.ne']
    conv_lhs => rw [hw, ← hk]
    rw [zpow_add₀ (by norm_num : (2 : ℚ) ≠ 0)]
    push_cast
    rw [zpow_natCast]
    ring
  unfold fl
  rw [hdiv, roundEven_intCast, ← hdiv, div_mul_cancel₀ _ hpos.ne']

theorem log2_le_of_lt (x : ℚ) (e : ℤ) (hx : 0 < x) (h : x < 2 ^ (e + 1)) :
    Int.log 2 x ≤ e := by
  have := (Int.lt_zpow_iff_log_lt (R := ℚ) (b := 2) (by norm_num) hx).1 (by exact_mod_cast h)
  omega

theorem log2_eq (x : ℚ) (e : ℤ) (h1 : 2 ^ e ≤ x) (h2 : x < 2 ^ (e + 1)) :
    Int.log 2 x = e := by
  have hx : 0 < x := lt_of_lt_of_le (two_zpow_pos e) h1
  apply le_antisymm (log2_le_of_lt x e hx h2)
  exact (Int.zpow_le_iff_le_log (R := ℚ) (b := 2) (by norm_num) hx).1 (by exact_mod_cast h1)

theorem pow24_mul (E : ℤ) : (2 : ℚ) ^ (24 : ℕ) * 2 ^ (E - 23) = 2 ^ (E + 1) := by
  rw [← zpow_natCast, ← zpow_add₀ (by norm_num : (2 : ℚ) ≠ 0)]; congr 1; omega

/-- Integers below `2^24` are binary32 values. -/
theorem fl_natCast (k : ℕ) (hk : k < 2 ^ 24) : fl (k : ℚ) = k := by
  rcases Nat.eq_zero_or_pos k with rfl | hpos
  · simpa using fl_zero
  · apply fl_of_repr (k : ℚ) (k : ℤ) 0 (by simp)
    have hx : (0 : ℚ) < k := by exact_mod_cast hpos
    have : Int.log 2 |(k : ℚ)| ≤ 23 := by
      rw [abs_of_pos hx]
      apply log2_le_of_lt _ _ hx
      have h1 : (k : ℚ) < 2 ^ (24 : ℕ) := by exact_mod_cast hk
      have h2 : (2 : ℚ) ^ ((23 : ℤ) + 1) = 2 ^ (24 : ℕ) := by norm_num
      rw [h2]; exact h1
    unfold ulpExp
    omega

/-- The rounding of a non-negative value is a binary32 value: rounding it again changes
nothing. -/
theorem fl_idem (z : ℚ) (hz : 0 ≤ z) : fl (fl z) = fl z := by
  rcases hz.eq_or_lt with rfl | hz
  · simp [fl_zero]
  set E := max (Int.log 2 |z|) (-126) with hE
  have hu : ulpExp z = E - 23 := rfl
  have hupos := two_zpow_pos (E - 23)
  set m := roundEven (z / 2 ^ (E - 23)) with hm
  have hfl : fl z = (m : ℚ) * 2 ^ (E - 23) := by unfold fl; rw [hu]
  have hzlt : z < 2 ^ (E + 1) := by
    have h := Int.lt_zpow_succ_log_self (R := ℚ) (b := 2) (by norm_num) z
    have hle : Int.log 2 z + 1 ≤ E + 1 := by
      have : Int.log 2 z ≤ E := by rw [hE, abs_of_pos hz]; exact le_max_left _ _
      omega
    calc z < (2 : ℚ) ^ (Int.log 2 z + 1) := by exact_mod_cast h
      _ ≤ 2 ^ (E + 1) := zpow_le_zpow_right₀ (by norm_num) hle
  have hs : z / 2 ^ (E - 23) < 2 ^ (24 : ℕ) := by
    rw [div_lt_iff₀ hupos]
    calc z < 2 ^ (E + 1) := hzlt
      _ = 2 ^ (24 : ℕ) * 2 ^ (E - 23) := (pow24_mul E).symm
  have hm0 : 0 ≤ m := by
    have h1 := roundEven_lower (z / 2 ^ (E - 23))
    have h2 : 0 < z / 2 ^ (E - 23) := div_pos hz hupos
    have : (-1 : ℚ) < (m : ℚ) := by rw [hm]; linarith
    have : (-1 : ℤ) < m := by exact_mod_cast this
    omega
  have hm24 : m ≤ 2 ^ 24 := by
    have h1 := roundEven_upper (z / 2 ^ (E - 23))
    have : (m : ℚ) < 2 ^ 24 + 1 := by rw [hm]; norm_num at hs ⊢; linarith
    have : m < 2 ^ 24 + 1 := by exact_mod_cast this
    omega
  rw [hfl]
  rcases hm0.eq_or_lt with h0 | hmpos
  · rw [← h0]; simp [fl_zero]
  rcases hm24.eq_or_lt with h24 | hlt
  · have hw : (m : ℚ) * 2 ^ (E - 23) = 2 ^ (E + 1) := by
      have : (m : ℚ) = 2 ^ (24 : ℕ) := by rw [h24]; norm_num
      rw [this, pow24_mul]
    rw [hw]
    apply fl_of_repr _ 1 (E + 1) (by simp)
    unfold ulpExp
    rw [abs_of_pos (two_zpow_pos _)]
    have := Int.log_zpow (R := ℚ) (b := 2) (by norm_num) (E + 1)
    have h2 : Int.log 2 ((2 : ℚ) ^ (E + 1)) = E + 1 := by exact_mod_cast this
    rw [h2]
    have : -126 ≤ E := le_max_right _ _
    rw [max_eq_left (by omega)]; omega
  · apply fl_of_repr _ m (E - 23) rfl
    have hwpos : (0 : ℚ) < (m : ℚ) * 2 ^ (E - 23) := by
      have : (0 : ℚ) < m := by exact_mod_cast hmpos
      positivity
    have hwlt : (m : ℚ) * 2 ^ (E - 23) < 2 ^ (E + 1) := by
      have : (m : ℚ) < 2 ^ (24 : ℕ) := by exact_mod_cast hlt
      calc (m : ℚ) * 2 ^ (E - 23) < 2 ^ (24 : ℕ) * 2 ^ (E - 23) := by
            apply mul_lt_mul_of_pos_right this hupos
        _ = 2 ^ (E + 1) := pow24_mul E
    have hlog := log2_le_of_lt _ E hwpos hwlt
    unfold ulpExp
    rw [abs_of_pos hwpos]
    have : -126 ≤ E := le_max_right _ _
    have : max (Int.log 2 ((m : ℚ) * 2 ^ (E - 23))) (-126) ≤ E := max_le hlog this
    omega

/-- The correctly rounded binary32 quotient of an integer below `2^24` by `255` has the
integer quotient as its integer part. -/
theorem floor_fl_div255 (P : ℕ) (hP : P < 2 ^ 24) :
    ⌊fl ((P : ℚ) / 255)⌋ = ((P / 255 : ℕ) : ℤ) := by
  rcases Nat.eq_zero_or_pos P with rfl | hpos
  · simp [fl_zero]
  have hPq : (0 : ℚ) < P := by exact_mod_cast hpos
  have hx : (0 : ℚ) < (P : ℚ) / 255 := by positivity
  have hxlt : (P : ℚ) / 255 < 2 ^ ((16 : ℤ) + 1) := by
    have h1 : (P : ℚ) < 16777216 := by exact_mod_cast hP
    have h2 : (2 : ℚ) ^ ((16 : ℤ) + 1) = 131072 := by norm_num
    rw [h2, div_lt_iff₀ (by norm_num)]
    linarith
  have hlog := log2_le_of_lt _ 16 hx hxlt
  have hE : max (Int.log 2 |(P : ℚ) / 255|) (-126) ≤ 16 := by
    rw [abs_of_pos hx]; exact max_le hlog (by norm_num)
  obtain ⟨j, hj⟩ : ∃ j : ℕ, ulpExp ((P : ℚ) / 255) = -(j : ℤ) ∧ 7 ≤ j := by
    refine ⟨(-(ulpExp ((P : ℚ) / 255))).toNat, ?_, ?_⟩ <;> unfold ulpExp <;> omega
  obtain ⟨hu, hj7⟩ := hj
  have hN : (128 : ℚ) ≤ 2 ^ j := by
    calc (128 : ℚ) = 2 ^ 7 := by norm_num
      _ ≤ 2 ^ j := pow_le_pow_right₀ (by norm_num) hj7
  have hpow : (2 : ℚ) ^ (-(j : ℤ)) = (2 ^ j)⁻¹ := by rw [zpow_neg, zpow_natCast]
  unfold fl
  rw [hu, hpow, div_inv_eq_mul]
  set N : ℚ := 2 ^ j with hNdef
  set m := roundEven ((P : ℚ) / 255 * N) with hm
  have hNpos : (0 : ℚ) < N := by positivity
  have hlo := roundEven_lower ((P : ℚ) / 255 * N)
  have hup := roundEven_upper ((P : ℚ) / 255 * N)
  rw [← hm] at hlo hup
  have hdm := Nat.div_add_mod P 255
  have hr : P % 255 ≤ 254 := by omega
  have hPeq : (P : ℚ) = 255 * ((P / 255 : ℕ) : ℚ) + ((P % 255 : ℕ) : ℚ) := by
    exact_mod_cast hdm.symm
  have hrq : ((P % 255 : ℕ) : ℚ) ≤ 254 := by exact_mod_cast hr
  have hr0 : (0 : ℚ) ≤ ((P % 255 : ℕ) : ℚ) := by positivity
  set a : ℚ := ((P / 255 : ℕ) : ℚ) with ha
  set r : ℚ := ((P % 255 : ℕ) : ℚ) with hrdef
  have hxN : (P : ℚ) / 255 * N = a * N + r * N / 255 := by rw [hPeq]; ring
  have hcast : ((((P / 255 : ℕ) : ℤ) * 2 ^ j : ℤ) : ℚ) = a * N := by
    rw [Int.cast_mul, Int.cast_pow, Int.cast_natCast, Int.cast_ofNat]
  have h1 : (((P / 255 : ℕ) : ℤ) * 2 ^ j : ℤ) ≤ m := by
    have : ((((P / 255 : ℕ) : ℤ) * 2 ^ j : ℤ) : ℚ) - 1 < (m : ℚ) := by
      rw [hcast]
      have : 0 ≤ r * N / 255 := by positivity
      rw [hxN] at hlo
      linarith
    have : (((P / 255 : ℕ) : ℤ) * 2 ^ j : ℤ) - 1 < m := by exact_mod_cast this
    omega
  have h2 : (m : ℚ) < (a + 1) * N := by
    rw [hxN] at hup
    have : r * N / 255 ≤ 254 * N / 255 := by
      apply div_le_div_of_nonneg_right _ (by norm_num)
      exact mul_le_mul_of_nonneg_right hrq hNpos.le
    linarith
  rw [Int.floor_eq_iff]
  constructor
  · rw [le_mul_inv_iff₀ hNpos]
    have : ((((P / 255 : ℕ) : ℤ) * 2 ^ j : ℤ) : ℚ) ≤ (m : ℚ) := by exact_mod_cast h1
    rw [hcast] at this
    rw [Int.cast_natCast]
    exact this
  · rw [mul_inv_lt_iff₀ hNpos, Int.cast_natCast]
    exact h2

/-- The rounding error is at most half a unit in the last place. -/
theorem fl_error (x : ℚ) (e : ℤ) (hx : 0 ≤ x) (h : x < 2 ^ (e + 1)) (he : -126 ≤ e) :
    |fl x - x| ≤ 2 ^ (e - 23) / 2 := by
  rcases hx.eq_or_lt with rfl | hpos
  · rw [fl_zero]; simp; positivity
  have hlog := log2_le_of_lt x e hpos h
  have hu : ulpExp x ≤ e - 23 := by
    unfold ulpExp
    rw [abs_of_pos hpos]
    have : max (Int.log 2 x) (-126) ≤ e := max_le hlog he
    omega
  have hupos := two_zpow_pos (ulpExp x)
  have hule : (2 : ℚ) ^ ulpExp x ≤ 2 ^ (e - 23) := zpow_le_zpow_right₀ (by norm_num) hu
  have h1 := roundEven_lower (x / 2 ^ ulpExp x)
  have h2 := roundEven_upper (x / 2 ^ ulpExp x)
  have hx2 : x = x / 2 ^ ulpExp x * 2 ^ ulpExp x := by
    rw [div_mul_cancel₀ _ hupos.ne']
  have hd : fl x - x = ((roundEven (x / 2 ^ ulpExp x) : ℚ) - x / 2 ^ ulpExp x) * 2 ^ ulpExp x := by
    unfold fl
    rw [sub_mul, ← hx2]
  rw [hd, abs_mul, abs_of_pos hupos]
  have h3 : |(roundEven (x / 2 ^ ulpExp x) : ℚ) - x / 2 ^ ulpExp x| ≤ 1 / 2 := by
    rw [abs_le]; constructor <;> linarith
  calc |(roundEven (x / 2 ^ ulpExp x) : ℚ) - x / 2 ^ ulpExp x| * 2 ^ ulpExp x
      ≤ 1 / 2 * 2 ^ ulpExp x := mul_le_mul_of_nonneg_right h3 hupos.le
    _ ≤ 1 / 2 * 2 ^ (e - 23) := by
        apply mul_le_mul_of_nonneg_left hule (by norm_num)
    _ = 2 ^ (e - 23) / 2 := by ring

/-- Evaluation of `fl` at a value whose binade is known. -/
theorem fl_eval (x : ℚ) (e m : ℤ) (h1 : 2 ^ e ≤ x) (h2 : x < 2 ^ (e + 1)) (he : -126 ≤ e)
    (hr : roundEven (x / 2 ^ (e - 23)) = m) : fl x = (m : ℚ) * 2 ^ (e - 23) := by
  have hx : 0 < x := lt_of_lt_of_le (two_zpow_pos e) h1
  have hu : ulpExp x = e - 23 := by
    unfold ulpExp
    rw [abs_of_pos hx, log2_eq x e h1 h2, max_eq_left he]
  unfold fl
  rw [hu, hr]

/-! ## The index computed by `map` -/

theorem to_float_eq (k : ℕ) (hk : k < 2 ^ 24) : to_float k = k := fl_natCast k hk

theorem trunc_of_nonneg (x : ℚ) (hx : 0 ≤ x) : trunc x = ⌊x⌋ := by
  simp [trunc, hx]

/-- With input `0` the result of `map(0, 0, x2, 0, y2)` is `0`, whatever the target
range. -/
theorem map_zero_input (x2 y2 : ℚ) : map (to_float 0) (to_float 0) x2 (to_float 0) y2 = 0 := by
  have h0 : to_float 0 = 0 := by simpa using to_float_eq 0 (by norm_num)
  simp [map, fadd, fdiv, fmul, fsub, h0, fl_zero]

/-- For a luminance `v <= 255` and a target bound `Y <= 65535` the product `v * Y` is exact
in binary32, and `map(v, 0, 255, 0, Y)` is the rounded quotient of `v * Y` by `255`. -/
theorem map_eq (v Y : ℕ) (hv : v ≤ 255) (hY : Y ≤ 65535) :
    map (to_float v) (to_float 0) (to_float 255) (to_float 0) (to_float Y)
      = fl (((v * Y : ℕ) : ℚ) / 255) := by
  have h0 : to_float 0 = 0 := by simpa using to_float_eq 0 (by norm_num)
  have h255 : to_float 255 = 255 := by simpa using to_float_eq 255 (by norm_num)
  have hvf : to_float v = v := to_float_eq v (by omega)
  have hYf : to_float Y = Y := to_float_eq Y (by omega)
  have hP : v * Y < 2 ^ 24 := by
    calc v * Y ≤ 255 * 65535 := Nat.mul_le_mul hv hY
      _ < 2 ^ 24 := by norm_num
  have hv2 : fl (v : ℚ) = v := fl_natCast v (by omega)
  have hY2 : fl (Y : ℚ) = Y := fl_natCast Y (by omega)
  have h2552 : fl (255 : ℚ) = 255 := by simpa using fl_natCast 255 (by norm_num)
  have hmul : fl ((v : ℚ) * (Y : ℚ)) = ((v * Y : ℕ) : ℚ) := by
    have := fl_natCast (v * Y) hP
    rw [Nat.cast_mul] at this ⊢
    exact this
  unfold map fadd fdiv fmul fsub
  rw [h0, h255, hvf, hYf]
  simp only [sub_zero, zero_add]
  rw [hv2, hY2, h2552, hmul]
  exact fl_idem _ (by positivity)

theorem trunc_map_eq (v Y : ℕ) (hv : v ≤ 255) (hY : Y ≤ 65535) :
    trunc (map (to_float v) (to_float 0) (to_float 255) (to_float 0) (to_float Y))
      = ((v * Y / 255 : ℕ) : ℤ) := by
  have hP : v * Y < 2 ^ 24 := by
    calc v * Y ≤ 255 * 65535 := Nat.mul_le_mul hv hY
      _ < 2 ^ 24 := by norm_num
  rw [map_eq v Y hv hY, trunc_of_nonneg _ (fl_nonneg _ (by positivity))]
  exact floor_fl_div255 (v * Y) hP

/-- For a luminance `v <= 255` and a target bound `Y < 2^23` the integer part of
`map(v, 0, 255, 0, Y)` lies in `[0, Y]`. -/
theorem trunc_map_le (v Y : ℕ) (hv : v ≤ 255) (hY : Y < 2 ^ 23) :
    0 ≤ trunc (map (to_float v) (to_float 0) (to_float 255) (to_float 0) (to_float Y)) ∧
      trunc (map (to_float v) (to_float 0) (to_float 255) (to_float 0) (to_float Y))
        ≤ (Y : ℤ) := by
  have h0 : to_float 0 = 0 := by simpa using to_float_eq 0 (by norm_num)
  have h255 : to_float 255 = 255 := by simpa using to_float_eq 255 (by norm_num)
  have hvf : to_float v = v := to_float_eq v (by omega)
  have hYf : to_float Y = Y := to_float_eq Y (by omega)
  have hv2 : fl (v : ℚ) = v := fl_natCast v (by omega)
  have hY2 : fl (Y : ℚ) = Y := fl_natCast Y (by omega)
  have h2552 : fl (255 : ℚ) = 255 := by simpa using fl_natCast 255 (by norm_num)
  have hvq : (v : ℚ) ≤ 255 := by exact_mod_cast hv
  have hYq : (Y : ℚ) ≤ 8388607 := by
    have : Y ≤ 8388607 := by omega
    exact_mod_cast this
  have h31 : (2 : ℚ) ^ ((30 : ℤ) + 1) = 2147483648 := by norm_num
  have h23 : (2 : ℚ) ^ ((22 : ℤ) + 1) = 8388608 := by norm_num
  have hv0 : (0 : ℚ) ≤ v := by positivity
  have hY0 : (0 : ℚ) ≤ Y := by positivity
  have hprod0 : (0 : ℚ) ≤ (v : ℚ) * Y := by positivity
  have hprod : (v : ℚ) * Y ≤ 255 * Y := mul_le_mul_of_nonneg_right hvq hY0
  -- the product, rounded
  have hP := fl_error ((v : ℚ) * Y) 30 hprod0 (by rw [h31]; linarith) (by norm_num)
  have hP0 := fl_nonneg ((v : ℚ) * Y) hprod0
  have hPle : fl ((v : ℚ) * Y) ≤ 255 * Y + 64 := by
    have := (abs_le.mp hP).2
    norm_num at this
    linarith
  -- the quotient, rounded
  have hq0 : (0 : ℚ) ≤ fl ((v : ℚ) * Y) / 255 := by positivity
  have hqle : fl ((v : ℚ) * Y) / 255 ≤ Y + 64 / 255 := by
    rw [div_le_iff₀ (by norm_num)]; linarith
  have hQ := fl_error (fl ((v : ℚ) * Y) / 255) 22 hq0 (by rw [h23]; linarith)
    (by norm_num)
  have hQle : fl (fl ((v : ℚ) * Y) / 255) < Y + 1 := by
    have := (abs_le.mp hQ).2
    norm_num at this
    linarith
  have hmap : map (to_float v) (to_float 0) (to_float 255) (to_float 0) (to_float Y)
      = fl (fl ((v : ℚ) * Y) / 255) := by
    unfold map fadd fdiv fmul fsub
    rw [h0, h255, hvf, hYf]
    simp only [sub_zero, zero_add]
    rw [hv2, hY2, h2552]
    exact fl_idem _ hq0
  rw [hmap, trunc_of_nonneg _ (fl_nonneg _ hq0)]
  constructor
  · exact Int.floor_nonneg.mpr (fl_nonneg _ hq0)
  · have : ⌊fl (fl ((v : ℚ) * Y) / 255)⌋ < (Y : ℤ) + 1 := by
      rw [Int.floor_lt]
      push_cast
      exact hQle
    omega

theorem size_sub_one_eq (n : ℕ) (h1 : 1 ≤ n) (h2 : n ≤ 2 ^ 64) : size_sub_one n = n - 1 := by
  unfold size_sub_one
  rw [show n + 2 ^ 64 - 1 = (n - 1) + 2 ^ 64 by omega, Nat.add_mod_right]
  exact Nat.mod_eq_of_lt (by omega)

theorem index_le (v n : ℕ) (hv : v ≤ 255) : v * (n - 1) / 255 ≤ n - 1 := by
  apply Nat.div_le_of_le_mul
  exact Nat.mul_le_mul_right _ hv

/-- The colour index of a ramp of `1` to `65536` entries is the integer quotient. -/
theorem color_index_eq (v n : ℕ) (hv : v ≤ 255) (h1 : 1 ≤ n) (hn : n ≤ 65536) :
    color_index v n = .ok (v * (n - 1) / 255) := by
  unfold color_index float_to_size
  rw [size_sub_one_eq n h1 (by omega), trunc_map_eq v (n - 1) hv (by omega)]
  have hle := index_le v n hv
  have h : (0 : ℤ) ≤ ((v * (n - 1) / 255 : ℕ) : ℤ) ∧ ((v * (n - 1) / 255 : ℕ) : ℤ) < 2 ^ 64 := by
    constructor
    · positivity
    · have : v * (n - 1) / 255 < 2 ^ 64 := by omega
      exact_mod_cast this
  rw [if_pos h, Int.toNat_natCast]

/-- The glyph index of a ramp of `1` to `65536` glyphs: the integer quotient when it fits a
`byte`, a fault otherwise. -/
theorem glyph_index_eq (v n : ℕ) (hv : v ≤ 255) (h1 : 1 ≤ n) (hn : n ≤ 65536) :
    glyph_index v n
      = if v * (n - 1) / 255 ≤ 255 then .ok (v * (n - 1) / 255) else .error .floatToByte := by
  unfold glyph_index float_to_byte
  rw [size_sub_one_eq n h1 (by omega), trunc_map_eq v (n - 1) hv (by omega)]
  have h0 : (0 : ℤ) ≤ ((v * (n - 1) / 255 : ℕ) : ℤ) := by positivity
  by_cases h : v * (n - 1) / 255 ≤ 255
  · have h2 : ((v * (n - 1) / 255 : ℕ) : ℤ) ≤ 255 := by exact_mod_cast h
    rw [if_pos ⟨h0, h2⟩, if_pos h, Int.toNat_natCast]
  · have h2 : ¬ ((v * (n - 1) / 255 : ℕ) : ℤ) ≤ 255 := by
      intro h3; apply h; exact_mod_cast h3
    rw [if_neg (fun hh => h2 hh.2), if_neg h]

theorem glyph_index_small (v n : ℕ) (hv : v ≤ 255) (h1 : 1 ≤ n) (hn : n ≤ 256) :
    glyph_index v n = .ok (v * (n - 1) / 255) := by
  rw [glyph_index_eq v n hv h1 (by omega), if_pos]
  have := index_le v n hv
  omega

/-- For a ramp of `1` to `2^23` entries the ramp index is at most `size - 1`. -/
theorem map_index_le (v n : ℕ) (hv : v ≤ 255) (h1 : 1 ≤ n) (hn : n ≤ 8388608) :
    map_index v n ≤ n - 1 := by
  unfold map_index
  rw [size_sub_one_eq n h1 (by omega)]
  have h := trunc_map_le v (n - 1) hv (by omega)
  omega

theorem map_index_lt (v n : ℕ) (hv : v ≤ 255) (h1 : 1 ≤ n) (hn : n ≤ 8388608) :
    map_index v n < n := by
  have := map_index_le v n hv h1 hn
  omega

/-- For a ramp of `1` to `65536` entries the ramp index is the integer quotient
`v * (size - 1) / 255`. -/
theorem map_index_eq (v n : ℕ) (hv : v ≤ 255) (h1 : 1 ≤ n) (hn : n ≤ 65536) :
    map_index v n = v * (n - 1) / 255 := by
  unfold map_index
  rw [size_sub_one_eq n h1 (by omega), trunc_map_eq v (n - 1) hv (by omega),
    Int.toNat_natCast]

/-- The colour index of a ramp of `1` to `2^23` entries is defined: it is the ramp
index. -/
theorem color_index_ok (v n : ℕ) (hv : v ≤ 255) (h1 : 1 ≤ n) (hn : n ≤ 8388608) :
    color_index v n = .ok (map_index v n) := by
  unfold color_index float_to_size map_index
  rw [size_sub_one_eq n h1 (by omega)]
  have h := trunc_map_le v (n - 1) hv (by omega)
  rw [if_pos ⟨h.1, by omega⟩]

/-- The glyph index of a ramp of `1` to `256` glyphs is defined: it is the ramp index. -/
theorem glyph_index_ok (v n : ℕ) (hv : v ≤ 255) (h1 : 1 ≤ n) (hn : n ≤ 256) :
    glyph_index v n = .ok (map_index v n) := by
  rw [glyph_index_small v n hv h1 hn, map_index_eq v n hv h1 (by omega)]

theorem grey_le (c : RGBA) : grey c ≤ 255 := by
  unfold grey
  omega

theorem color_index_zero (n : ℕ) : color_index 0 n = .ok 0 := by
  unfold color_index float_to_size
  rw [map_zero_input]
  simp [trunc]

theorem glyph_index_zero (n : ℕ) : glyph_index 0 n = .ok 0 := by
  unfold glyph_index float_to_byte
  rw [map_zero_input]
  simp [trunc]

theorem roundEven_down (x : ℚ) (f : ℤ) (h1 : (f : ℚ) ≤ x) (h2 : x - f < 1 / 2) :
    roundEven x = f := by
  have hf : ⌊x⌋ = f := by
    rw [Int.floor_eq_iff]; constructor <;> linarith
  unfold roundEven
  rw [hf, if_pos h2]

theorem roundEven_up (x : ℚ) (f : ℤ) (h1 : 1 / 2 < x - f) (h2 : x < f + 1) :
    roundEven x = f + 1 := by
  have hf : ⌊x⌋ = f := by
    rw [Int.floor_eq_iff]; constructor <;> linarith
  unfold roundEven
  rw [hf, if_neg (by linarith), if_pos h1]

theorem roundEven_tie_odd (x : ℚ) (f : ℤ) (h1 : x - f = 1 / 2) (h2 : f % 2 = 1) :
    roundEven x = f + 1 := by
  have hf : ⌊x⌋ = f := by
    rw [Int.floor_eq_iff]; constructor <;> linarith
  unfold roundEven
  rw [hf, h1]
  simp [h2]

/-- The `size_t` value `16777219 = 2^24 + 3` is not a binary32 value; its conversion to
`float` is the even neighbour `16777220`. -/
theorem to_float_16777219 : to_float 16777219 = 16777220 := by
  unfold to_float
  simp only [Nat.cast_ofNat]
  rw [fl_eval (16777219 : ℚ) 24 8388610 (by norm_num) (by norm_num) (by norm_num)
    (by
      have := roundEven_tie_odd ((16777219 : ℚ) / 2 ^ ((24 : ℤ) - 23)) 8388609
        (by norm_num) (by norm_num)
      simpa using this)]
  norm_num

theorem fl_255_mul_16777220 : fl ((255 : ℚ) * 16777220) = 4278191104 := by
  rw [fl_eval ((255 : ℚ) * 16777220) 31 16711684 (by norm_num) (by norm_num) (by norm_num)
    (roundEven_up _ 16711683 (by norm_num) (by norm_num))]
  norm_num

theorem fl_4278191104_div_255 : fl ((4278191104 : ℚ) / 255) = 16777220 := by
  rw [fl_eval ((4278191104 : ℚ) / 255) 24 8388610 (by norm_num) (by norm_num) (by norm_num)
    (roundEven_down _ 8388610 (by norm_num) (by norm_num))]
  norm_num

/-- For a ramp of `16777220` entries and luminance `255` the computed index is `16777220`,
one past the last entry. -/
theorem color_index_255_16777220 : color_index 255 16777220 = .ok 16777220 := by
  have h0 : to_float 0 = 0 := by simpa using to_float_eq 0 (by norm_num)
  have h255 : to_float 255 = 255 := by simpa using to_float_eq 255 (by norm_num)
  have h255b : fl (255 : ℚ) = 255 := by simpa using fl_natCast 255 (by norm_num)
  have hs : size_sub_one 16777220 = 16777219 := by norm_num [size_sub_one]
  have hY : fl (16777220 : ℚ) = 16777220 := by
    have := fl_idem (16777219 : ℚ) (by norm_num)
    have h := to_float_16777219
    unfold to_float at h
    norm_num at h
    rw [h] at this
    exact this
  have hm : map (to_float 255) (to_float 0) (to_float 255) (to_float 0) (to_float 16777219)
      = 16777220 := by
    unfold map fadd fdiv fmul fsub
    rw [h0, h255, to_float_16777219]
    simp only [sub_zero, zero_add]
    rw [h255b, hY, fl_255_mul_16777220, fl_4278191104_div_255, hY]
  unfold color_index float_to_size
  rw [hs, hm]
  norm_num [trunc]
  rfl

theorem fl_255_mul_8422016 : fl ((255 : ℚ) * 8422016) = 2147614208 := by
  rw [fl_eval ((255 : ℚ) * 8422016) 31 8389118 (by norm_num) (by norm_num) (by norm_num)
    (by
      have := roundEven_tie_odd ((255 : ℚ) * 8422016 / 2 ^ ((31 : ℤ) - 23)) 8389117
        (by norm_num) (by norm_num)
      simpa using this)]
  norm_num

theorem fl_2147614208_div_255 : fl ((2147614208 : ℚ) / 255) = 8422017 := by
  rw [fl_eval ((2147614208 : ℚ) / 255) 23 8422017 (by norm_num) (by norm_num) (by norm_num)
    (by
      have := roundEven_up ((2147614208 : ℚ) / 255 / 2 ^ ((23 : ℤ) - 23)) 8422016
        (by norm_num) (by norm_num)
      simpa using this)]
  norm_num

/-- For a ramp of `8422017` entries and luminance `255` the computed index is `8422017`,
one past the last entry. -/
theorem color_index_255_8422017 : color_index 255 8422017 = .ok 8422017 := by
  have h0 : to_float 0 = 0 := by simpa using to_float_eq 0 (by norm_num)
  have h255 : to_float 255 = 255 := by simpa using to_float_eq 255 (by norm_num)
  have h255b : fl (255 : ℚ) = 255 := by simpa using fl_natCast 255 (by norm_num)
  have hs : size_sub_one 8422017 = 8422016 := by norm_num [size_sub_one]
  have hYf : to_float 8422016 = 8422016 := by simpa using to_float_eq 8422016 (by norm_num)
  have hY : fl (8422016 : ℚ) = 8422016 := by simpa using fl_natCast 8422016 (by norm_num)
  have hI : fl (8422017 : ℚ) = 8422017 := by simpa using fl_natCast 8422017 (by norm_num)
  have hm : map (to_float 255) (to_float 0) (to_float 255) (to_float 0) (to_float 8422016)
      = 8422017 := by
    unfold map fadd fdiv fmul fsub
    rw [h0, h255, hYf]
    simp only [sub_zero, zero_add]
    rw [h255b, hY, fl_255_mul_8422016, fl_2147614208_div_255, hI]
  unfold color_index float_to_size
  rw [hs, hm]
  norm_num [trunc]
  rfl

/-! ## Loops -/

theorem foldlM_range_ok {σ : Type} (f : σ → ℕ → Except Fault σ) (g : ℕ → σ) (N : ℕ)
    (hstep : ∀ k, k < N → f (g k) k = .ok (g (k + 1))) :
    (List.range N).foldlM f (g 0) = .ok (g N) := by
  induction N with
  | zero => rfl
  | succ n ih =>
    rw [List.range_succ, List.foldlM_append, ih (fun k hk => hstep k (by omega))]
    show (do let s ← Except.ok (g n); List.foldlM f s [n]) = _
    simp only [List.foldlM_cons, List.foldlM_nil]
    show (do let s ← f (g n) n; pure s) = _
    rw [hstep n (by omega)]
    rfl

theorem row_after_succ (w k : ℕ) :
    row_after w (k + 1) = if k ≠ 0 ∧ k % w = 0 then row_after w k + 1 else row_after w k := by
  unfold row_after
  rcases Nat.eq_zero_or_pos k with rfl | hk
  · simp
  · obtain ⟨j, rfl⟩ : ∃ j, k = j + 1 := ⟨k - 1, by omega⟩
    simp only [Nat.add_sub_cancel, Nat.succ_div, Nat.dvd_iff_mod_eq_zero]
    by_cases h : (j + 1) % w = 0
    · simp [h]
    · simp [h]

theorem row_after_break (w k : ℕ) (hw : 1 ≤ w) :
    k ≥ row_after w k * w ↔ (k ≠ 0 ∧ k % w = 0) := by
  unfold row_after
  rcases Nat.eq_zero_or_pos k with rfl | hk
  · simp; omega
  · obtain ⟨j, rfl⟩ : ∃ j, k = j + 1 := ⟨k - 1, by omega⟩
    simp only [Nat.add_sub_cancel]
    have hlt : j < (j / w + 1) * w := by
      have := Nat.div_add_mod j w
      have := Nat.mod_lt j (show w > 0 by omega)
      nlinarith
    constructor
    · intro h
      refine ⟨by omega, ?_⟩
      have : j + 1 = (j / w + 1) * w := by omega
      rw [this]; exact Nat.mul_mod_left _ _
    · rintro ⟨_, h⟩
      obtain ⟨c, hc⟩ := Nat.dvd_of_mod_eq_zero h
      have hjc : j / w < c := by
        apply Nat.div_lt_of_lt_mul
        omega
      calc (j / w + 1) * w ≤ c * w := Nat.mul_le_mul_right _ hjc
        _ = j + 1 := by rw [hc]; ring

/-! ## Rows -/

theorem with_breaks_row {α : Type} (w : ℕ) (sep : α) (f : ℕ → α) (hw : 1 ≤ w) (y j : ℕ)
    (hj : j + 1 ≤ w) :
    with_breaks w sep f (y * w + (j + 1))
      = with_breaks w sep f (y * w) ++ (if y ≠ 0 then [sep] else [])
          ++ (List.range (j + 1)).map (fun x => f (y * w + x)) := by
  induction j with
  | zero =>
    show with_breaks w sep f (y * w + 1) = _
    rw [with_breaks]
    have h1 : (y * w) % w = 0 := Nat.mul_mod_left _ _
    have h2 : y * w ≠ 0 ↔ y ≠ 0 := by
      constructor
      · intro h hy; apply h; rw [hy]; simp
      · intro h hy
        rcases Nat.mul_eq_zero.mp hy with h3 | h3 <;> omega
    simp [h1, h2, List.range_succ]
  | succ j ih =>
    rw [show y * w + (j + 1 + 1) = (y * w + (j + 1)) + 1 from rfl, with_breaks,
      ih (by omega)]
    have h1 : (y * w + (j + 1)) % w ≠ 0 := by
      rw [Nat.mul_comm, Nat.mul_add_mod, Nat.mod_eq_of_lt (by omega)]
      omega
    have hc : ¬ (y * w + (j + 1) ≠ 0 ∧ (y * w + (j + 1)) % w = 0) := fun h => h1 h.2
    rw [if_neg hc, List.range_succ (n := j + 1), List.map_append]
    simp

theorem intercalate_snoc {α : Type} (sep : List α) (rows : List (List α)) (row : List α)
    (hne : rows ≠ []) :
    List.intercalate sep (rows ++ [row]) = List.intercalate sep rows ++ sep ++ row := by
  induction rows with
  | nil => exact absurd rfl hne
  | cons r rs ih =>
    cases rs with
    | nil => simp [List.intercalate]
    | cons r2 rs2 =>
      have h := ih (by simp)
      simp only [List.intercalate, List.cons_append, List.intersperse, List.flatten] at h ⊢
      simp at h ⊢
      exact h

/-- The output of a loop that breaks before every row but the first is the list of the
rows of the grid joined by the separator. -/
theorem with_breaks_grid {α : Type} (w : ℕ) (sep : α) (f : ℕ → α) (hw : 1 ≤ w) (h : ℕ) :
    with_breaks w sep f (h * w) = List.intercalate [sep] (grid_rows w h f) := by
  induction h with
  | zero => simp [with_breaks, grid_rows, List.intercalate]
  | succ y ih =>
    obtain ⟨j, hj⟩ : ∃ j, w = j + 1 := ⟨w - 1, by omega⟩
    have hrow := with_breaks_row w sep f hw y j (by omega)
    rw [← hj] at hrow
    rw [show (y + 1) * w = y * w + w by ring, hrow, ih]
    unfold grid_rows
    cases y with
    | zero => simp [with_breaks, List.intercalate, List.range_succ]
    | succ y =>
      rw [List.range_succ (n := y + 1), List.map_append, List.map_singleton,
        intercalate_snoc _ _ _ (by simp [List.range_succ])]
      simp

/-! ## Array reads inside their bounds -/

theorem colors_at_eq (colors : List RGBA) (k : ℕ) (h : k < colors.length) :
    colors_at colors k = .ok (pixel colors k) := by
  simp [colors_at, pixel, List.getD, List.getElem?_eq_getElem h]

theorem pixel_eq (colors : List RGBA) (k : ℕ) (h : k < colors.length) :
    colors[k]? = some (pixel colors k) := by
  simp [pixel, List.getD, List.getElem?_eq_getElem h]

theorem string_at_eq (s : List Char) (i : ℕ) (h : i < s.length) :
    string_at s i = .ok (s.getD i NUL) := by
  simp [string_at, List.getD, List.getElem?_eq_getElem h]

theorem vector_at_eq (v : List Color) (i : ℕ) (h : i < v.length) :
    vector_at v i = .ok (v.getD i AUTO) := by
  simp [vector_at, List.getD, List.getElem?_eq_getElem h]

theorem index_lt (v n : ℕ) (hv : v ≤ 255) (h1 : 1 ≤ n) : v * (n - 1) / 255 < n := by
  have := index_le v n hv
  omega

/-- On a glyph ramp of `1` to `65536` glyphs the glyph of a sample is the entry at the
integer quotient `grey * (length - 1) / 255`. -/
theorem spec_glyph_eq (ascii_map : List Char) (h1 : 1 ≤ ascii_map.length)
    (hn : ascii_map.length ≤ 65536) (c : RGBA) :
    spec_glyph ascii_map c = ascii_map.getD (grey c * (ascii_map.length - 1) / 255) NUL := by
  unfold spec_glyph
  rw [map_index_eq _ _ (grey_le c) h1 hn]

/-- On a colour ramp of `1` to `65536` entries the colour of a sample is the entry at the
integer quotient `grey * (size - 1) / 255`. -/
theorem spec_color_eq (colormap : List Color) (h1 : 1 ≤ colormap.length)
    (hn : colormap.length ≤ 65536) (c : RGBA) :
    spec_color colormap c = colormap.getD (grey c * (colormap.length - 1) / 255) AUTO := by
  unfold spec_color
  rw [map_index_eq _ _ (grey_le c) h1 hn]

/-! ## `ascii_image` -/

theorem ascii_image_body_eq (image : Image) (colors : List RGBA) (ascii_map : List Char)
    (hw : 1 ≤ image.width) (h1 : 1 ≤ ascii_map.length) (h256 : ascii_map.length ≤ 256)
    (k : ℕ) (hk : k < colors.length) :
    ascii_image_body image colors ascii_map
        (row_after image.width k,
          with_breaks image.width LF (fun i => spec_glyph ascii_map (pixel colors i)) k) k
      = .ok (row_after image.width (k + 1),
          with_breaks image.width LF (fun i => spec_glyph ascii_map (pixel colors i)) (k + 1)) := by
  unfold ascii_image_body
  rw [colors_at_eq colors k hk]
  simp only [bind, Except.bind]
  rw [glyph_index_ok _ _ (grey_le _) h1 h256]
  simp only []
  rw [string_at_eq _ _ (map_index_lt _ _ (grey_le _) h1 (by omega))]
  simp only [pure, Except.pure]
  rw [row_after_succ, with_breaks]
  by_cases hb : k ≠ 0 ∧ k % image.width = 0
  · rw [if_pos ((row_after_break _ _ hw).2 hb), if_pos hb, if_pos hb]
    rfl
  · rw [if_neg (fun h => hb ((row_after_break _ _ hw).1 h)), if_neg hb, if_neg hb]
    simp [spec_glyph]

/-- The text buffer of `ascii_image` for a ramp of `1` to `256` glyphs: the glyphs of the
samples in order, with a line break before every sample that starts a row other than the
first. -/
theorem ascii_image_eq (image : Image) (colors : List RGBA) (ascii_map : List Char)
    (hw : 1 ≤ image.width) (hlen : colors.length = image.width * image.height)
    (h1 : 1 ≤ ascii_map.length) (h256 : ascii_map.length ≤ 256) :
    ascii_image image colors ascii_map
      = .ok (with_breaks image.width LF (fun i => spec_glyph ascii_map (pixel colors i))
          (image.width * image.height)) := by
  unfold ascii_image Image.image_size
  have h := foldlM_range_ok (ascii_image_body image colors ascii_map)
    (fun k => (row_after image.width k,
      with_breaks image.width LF (fun i => spec_glyph ascii_map (pixel colors i)) k))
    (image.width * image.height)
    (fun k hk => ascii_image_body_eq image colors ascii_map hw h1 h256 k (by omega))
  have h0 : row_after image.width 0 = 1 := by simp [row_after]
  simp only [h0, with_breaks] at h
  rw [h]
  rfl

/-! ## The row-batched renderers -/

theorem slice_range_map {α : Type} (F : ℕ → α) (N a w : ℕ) (h : a + w ≤ N) :
    (((List.range N).map F).drop a).take w = (List.range w).map (fun x => F (a + x)) := by
  apply List.ext_getElem?
  intro i
  simp only [List.getElem?_take, List.getElem?_drop, List.getElem?_map]
  by_cases hi : i < w
  · have h1 : a + i < N := by omega
    simp [hi, h1, List.getElem?_range]
  · have h2 : (List.range w)[i]? = none := by
      apply List.getElem?_eq_none; simp; omega
    simp [hi, h2]

/-- The closing loop hands row `y` the cells `y * w, ..., y * w + w - 1`. -/
theorem put_lines_eq (image : Image) (F : ℕ → WinPixel) (hw : 1 ≤ image.width) :
    put_lines image ((List.range (image.width * image.height)).map F)
      = .ok ((List.range image.height).map (fun y =>
          PutLine.mk 0 y ((List.range image.width).map (fun x => F (y * image.width + x))))) := by
  unfold put_lines
  have h := foldlM_range_ok
    (fun out y => do
      let cells ← pixels_slice ((List.range (image.width * image.height)).map F)
        (y * image.width) image.width
      pure (out ++ [PutLine.mk 0 y cells]))
    (fun n => (List.range n).map (fun y =>
          PutLine.mk 0 y ((List.range image.width).map (fun x => F (y * image.width + x)))))
    image.height
    (by
      intro y hy
      have hle : y * image.width + image.width ≤ image.width * image.height := by
        calc y * image.width + image.width = (y + 1) * image.width := by ring
          _ ≤ image.height * image.width := Nat.mul_le_mul_right _ hy
          _ = image.width * image.height := Nat.mul_comm _ _
      have hc : y * image.width < ((List.range (image.width * image.height)).map F).length ∧
          y * image.width + image.width
            ≤ ((List.range (image.width * image.height)).map F).length := by
        simp only [List.length_map, List.length_range]
        omega
      simp only [pixels_slice]
      rw [if_pos hc, slice_range_map F _ _ _ hle, List.range_succ, List.map_append]
      rfl)
  simpa using h

theorem print_color_image_fast_body_eq (colors : List RGBA) (colormap : List Color)
    (h1 : 1 ≤ colormap.length) (hn : colormap.length ≤ 8388608) (k : ℕ)
    (hk : k < colors.length) :
    print_color_image_fast_body colors colormap
        ((List.range k).map (fun i => spec_block_cell colormap (pixel colors i))) k
      = .ok ((List.range (k + 1)).map (fun i => spec_block_cell colormap (pixel colors i))) := by
  unfold print_color_image_fast_body
  rw [colors_at_eq colors k hk]
  simp only [bind, Except.bind]
  rw [color_index_ok _ _ (grey_le _) h1 hn]
  simp only []
  rw [vector_at_eq _ _ (map_index_lt _ _ (grey_le _) h1 hn)]
  simp only [pure, Except.pure]
  rw [List.range_succ, List.map_append]
  rfl

/-- The `put_line` calls of `print_color_image_fast` for a colour ramp of `1` to `2^23`
entries. -/
theorem print_color_image_fast_eq (image : Image) (colors : List RGBA) (colormap : List Color)
    (hw : 1 ≤ image.width) (hlen : colors.length = image.width * image.height)
    (h1 : 1 ≤ colormap.length) (hn : colormap.length ≤ 8388608) :
    print_color_image_fast image colors colormap
      = .ok ((List.range image.height).map (fun y => PutLine.mk 0 y
          ((List.range image.width).map (fun x =>
            spec_block_cell colormap (pixel colors (y * image.width + x)))))) := by
  unfold print_color_image_fast Image.image_size
  have h := foldlM_range_ok (print_color_image_fast_body colors colormap)
    (fun k => (List.range k).map (fun i => spec_block_cell colormap (pixel colors i)))
    (image.width * image.height)
    (fun k hk => print_color_image_fast_body_eq colors colormap h1 hn k (by omega))
  simp only [List.range_zero, List.map_nil] at h
  rw [h]
  exact put_lines_eq image (fun i => spec_block_cell colormap (pixel colors i)) hw

theorem spec_glyph_ne_LF (ascii_map : List Char) (c : RGBA) (hLF : LF ∉ ascii_map) :
    spec_glyph ascii_map c ≠ LF := by
  unfold spec_glyph
  rw [List.getD_eq_getElem?_getD]
  cases h : ascii_map[map_index (grey c) ascii_map.length]? with
  | none => decide
  | some a =>
    intro ha
    apply hLF
    have : a = LF := ha
    exact this ▸ List.getElem?_mem h

theorem walk_body_LF (colors : List RGBA) (colormap : List Color) (st : ℕ × List WinPixel) :
    print_color_ascii_fast_body colors colormap st LF = .ok st := by
  simp [print_color_ascii_fast_body, pure, Except.pure]

theorem walk_body_glyph (colors : List RGBA) (ascii_map : List Char) (colormap : List Color)
    (h1 : 1 ≤ colormap.length) (hn : colormap.length ≤ 8388608)
    (hLF : LF ∉ ascii_map) (k : ℕ) (hk : k < colors.length) :
    print_color_ascii_fast_body colors colormap
        (k, (List.range k).map (fun i => spec_tint_cell ascii_map colormap (pixel colors i)))
        (spec_glyph ascii_map (pixel colors k))
      = .ok (k + 1,
          (List.range (k + 1)).map (fun i => spec_tint_cell ascii_map colormap (pixel colors i))) := by
  have hne : spec_glyph ascii_map (pixel colors k) ≠ LF := spec_glyph_ne_LF ascii_map _ hLF
  unfold print_color_ascii_fast_body
  rw [if_neg hne]
  simp only []
  rw [colors_at_eq colors k hk]
  simp only [bind, Except.bind]
  rw [color_index_ok _ _ (grey_le _) h1 hn]
  simp only []
  rw [vector_at_eq _ _ (map_index_lt _ _ (grey_le _) h1 hn)]
  simp only [pure, Except.pure]
  rw [List.range_succ, List.map_append]
  rfl

/-- The walk of `print_color_ascii_fast` over the first `k` glyphs of the text buffer (and
the line breaks among them) ends with pixel index `k` and one cell for each of the `k`
samples. -/
theorem walk_with_breaks (w : ℕ) (colors : List RGBA) (ascii_map : List Char)
    (colormap : List Color) (h1 : 1 ≤ colormap.length) (hn : colormap.length ≤ 8388608)
    (hLF : LF ∉ ascii_map) (k : ℕ) (hk : k ≤ colors.length) :
    print_color_ascii_fast_walk
        (with_breaks w LF (fun i => spec_glyph ascii_map (pixel colors i)) k) colors colormap
      = .ok (k, (List.range k).map (fun i => spec_tint_cell ascii_map colormap (pixel colors i))) := by
  unfold print_color_ascii_fast_walk
  induction k with
  | zero => rfl
  | succ k ih =>
    rw [with_breaks, List.foldlM_append, List.foldlM_append, ih (by omega)]
    simp only [bind, Except.bind]
    have hbr : List.foldlM (print_color_ascii_fast_body colors colormap)
        (k, (List.range k).map (fun i => spec_tint_cell ascii_map colormap (pixel colors i)))
        (if k ≠ 0 ∧ k % w = 0 then [LF] else [])
        = .ok (k, (List.range k).map
            (fun i => spec_tint_cell ascii_map colormap (pixel colors i))) := by
      split_ifs
      · simp only [List.foldlM_cons, List.foldlM_nil, walk_body_LF]
        rfl
      · rfl
    rw [hbr]
    simp only [List.foldlM_cons, List.foldlM_nil]
    rw [walk_body_glyph colors ascii_map colormap h1 hn hLF k (by omega)]
    rfl

/-! ## The per-cell renderer `print_color_image` -/

theorem print_color_image_body_eq (image : Image) (colors : List RGBA) (colormap : List Color)
    (hw : 1 ≤ image.width) (h1 : 1 ≤ colormap.length) (hn : colormap.length ≤ 8388608)
    (k : ℕ) (hk : k < colors.length) :
    print_color_image_body image colors colormap
        (row_after image.width k,
          with_breaks image.width (ConsoleOp.putchar LF)
            (fun i => ConsoleOp.put ' ' (COLORS.mk AUTO (spec_color colormap (pixel colors i)))) k) k
      = .ok (row_after image.width (k + 1),
          with_breaks image.width (ConsoleOp.putchar LF)
            (fun i => ConsoleOp.put ' ' (COLORS.mk AUTO (spec_color colormap (pixel colors i))))
            (k + 1)) := by
  unfold print_color_image_body
  rw [colors_at_eq colors k hk]
  simp only [bind, Except.bind]
  rw [color_index_ok _ _ (grey_le _) h1 hn]
  simp only []
  rw [vector_at_eq _ _ (map_index_lt _ _ (grey_le _) h1 hn)]
  simp only [pure, Except.pure]
  rw [row_after_succ, with_breaks]
  by_cases hb : k ≠ 0 ∧ k % image.width = 0
  · rw [if_pos ((row_after_break _ _ hw).2 hb), if_pos hb, if_pos hb]
    rfl
  · rw [if_neg (fun h => hb ((row_after_break _ _ hw).1 h)), if_neg hb, if_neg hb]
    simp [spec_color]

/-- The console writes of `print_color_image` for a colour ramp of `1` to `2^23` entries. -/
theorem print_color_image_eq (image : Image) (colors : List RGBA) (colormap : List Color)
    (hw : 1 ≤ image.width) (hlen : colors.length = image.width * image.height)
    (h1 : 1 ≤ colormap.length) (hn : colormap.length ≤ 8388608) :
    print_color_image image colors colormap
      = .ok (with_breaks image.width (ConsoleOp.putchar LF)
          (fun i => ConsoleOp.put ' ' (COLORS.mk AUTO (spec_color colormap (pixel colors i))))
          (image.width * image.height)) := by
  unfold print_color_image Image.image_size
  have h := foldlM_range_ok (print_color_image_body image colors colormap)
    (fun k => (row_after image.width k,
      with_breaks image.width (ConsoleOp.putchar LF)
        (fun i => ConsoleOp.put ' ' (COLORS.mk AUTO (spec_color colormap (pixel colors i)))) k))
    (image.width * image.height)
    (fun k hk => print_color_image_body_eq image colors colormap hw h1 hn k (by omega))
  have h0 : row_after image.width 0 = 1 := by simp [row_after]
  simp only [h0, with_breaks] at h
  rw [h]
  rfl

/-! ## Single steps of the monad of faults -/

theorem ok_bind {α β : Type} (a : α) (f : α → Except Fault β) : (Except.ok a >>= f) = f a := rfl

theorem error_bind {α β : Type} (e : Fault) (f : α → Except Fault β) :
    (Except.error e >>= f) = Except.error e := rfl

/-! ## One-pixel images -/

theorem ascii_image_single (c : RGBA) (ascii_map : List Char) :
    ascii_image (Image.mk 1 1) [c] ascii_map
      = (do
          let index ← glyph_index (grey c) ascii_map.length
          let ch ← string_at ascii_map index
          pure [ch]) := by
  have hr : List.range (Image.mk 1 1).image_size = [0] := by decide
  have hc : colors_at [c] 0 = .ok c := rfl
  unfold ascii_image
  rw [hr]
  simp only [List.foldlM_cons, List.foldlM_nil, ascii_image_body]
  rw [hc, ok_bind]
  cases h1 : glyph_index (grey c) ascii_map.length with
  | error e => rfl
  | ok i =>
    rw [ok_bind, ok_bind]
    cases h2 : string_at ascii_map i with
    | error e => rfl
    | ok ch => rfl

theorem print_color_image_fast_single (c : RGBA) (colormap : List Color) :
    print_color_image_fast (Image.mk 1 1) [c] colormap
      = (do
          let index ← color_index (grey c) colormap.length
          let color ← vector_at colormap index
          pure [PutLine.mk 0 0 [WinPixel.mk ' ' (COLORS.mk AUTO color)]]) := by
  have hr : List.range (Image.mk 1 1).image_size = [0] := by decide
  have hc : colors_at [c] 0 = .ok c := rfl
  unfold print_color_image_fast
  rw [hr]
  simp only [List.foldlM_cons, List.foldlM_nil, print_color_image_fast_body]
  rw [hc, ok_bind]
  cases h1 : color_index (grey c) colormap.length with
  | error e => rfl
  | ok i =>
    rw [ok_bind, ok_bind]
    cases h2 : vector_at colormap i with
    | error e => rfl
    | ok color => rfl

theorem print_color_ascii_fast_walk_single (ch : Char) (c : RGBA) (colormap : List Color)
    (hch : ch ≠ LF) :
    print_color_ascii_fast_walk [ch] [c] colormap
      = (do
          let index ← color_index (grey c) colormap.length
          let color ← vector_at colormap index
          pure (1, [WinPixel.mk ch (COLORS.mk color AUTO)])) := by
  have hc : colors_at [c] 0 = .ok c := rfl
  unfold print_color_ascii_fast_walk
  simp only [List.foldlM_cons, List.foldlM_nil, print_color_ascii_fast_body]
  rw [if_neg hch, hc, ok_bind]
  cases h1 : color_index (grey c) colormap.length with
  | error e => rfl
  | ok i =>
    rw [ok_bind, ok_bind]
    cases h2 : vector_at colormap i with
    | error e => rfl
    | ok color => rfl

theorem grey_white : grey (RGBA.mk 255 255 255 255) = 255 := by decide

theorem grey_black : grey (RGBA.mk 0 0 0 255) = 0 := by decide

theorem vector_at_replicate_end (n : ℕ) (a : Color) :
    vector_at (List.replicate n a) n = .error (Fault.vectorOutOfRange n) := by
  unfold vector_at
  rw [List.getElem?_replicate, if_neg (Nat.lt_irrefl n)]

/-! ## C1: the text buffer of `ascii_image` -/

theorem row_after_full (w h : ℕ) (hw : 1 ≤ w) (hh : 1 ≤ h) : row_after w (w * h) = h := by
  unfold row_after
  obtain ⟨j, rfl⟩ : ∃ j, h = j + 1 := ⟨h - 1, by omega⟩
  have h1 : w * (j + 1) - 1 = (w - 1) + w * j := by
    rw [Nat.mul_succ]; omega
  rw [h1, Nat.add_mul_div_left _ _ (by omega : 0 < w), Nat.div_eq_of_lt (by omega)]
  omega

theorem with_breaks_length {α : Type} (w : ℕ) (sep : α) (f : ℕ → α) (k : ℕ) :
    (with_breaks w sep f k).length + 1 = k + row_after w k := by
  induction k with
  | zero => simp [with_breaks, row_after]
  | succ k ih =>
    rw [with_breaks, row_after_succ]
    by_cases hb : k ≠ 0 ∧ k % w = 0
    · simp only [if_pos hb, List.length_append, List.length_singleton]; omega
    · simp only [if_neg hb, List.length_append, List.length_singleton, List.length_nil]; omega

/-- The text buffer of `ascii_image` for every grid of width and height at least `1` and
every glyph ramp of `1` to `256` glyphs: the `height` rows joined by single line breaks,
row `r` holding the glyphs of the samples `r * width, ..., r * width + width - 1`; its
length is `width * height + (height - 1)`; and the glyph of a sample is the ramp entry at
the index the code computes with `map`, the integer quotient
`grey * (length - 1) / 255`. -/
theorem ascii_image_rows (image : Image) (colors : List RGBA) (ascii_map : List Char)
    (hw : 1 ≤ image.width) (hh : 1 ≤ image.height)
    (hlen : colors.length = image.width * image.height)
    (h1 : 1 ≤ ascii_map.length) (h256 : ascii_map.length ≤ 256) :
    ∃ text, ascii_image image colors ascii_map = .ok text ∧
      text = List.intercalate [LF] (grid_rows image.width image.height
        (fun k => spec_glyph ascii_map (pixel colors k))) ∧
      text.length = image.width * image.height + (image.height - 1) ∧
      (∀ k, k < image.width * image.height → colors[k]? = some (pixel colors k)) ∧
      ∀ c : RGBA, ∃ i, glyph_index (grey c) ascii_map.length = .ok i ∧
        i = grey c * (ascii_map.length - 1) / 255 ∧
        ascii_map[i]? = some (spec_glyph ascii_map c) := by
  refine ⟨_, ascii_image_eq image colors ascii_map hw hlen h1 h256, ?_, ?_, ?_, ?_⟩
  · rw [Nat.mul_comm image.width image.height]
    exact with_breaks_grid image.width LF _ hw image.height
  · have := with_breaks_length image.width LF
      (fun i => spec_glyph ascii_map (pixel colors i)) (image.width * image.height)
    rw [row_after_full _ _ hw hh] at this
    omega
  · intro k hk
    exact pixel_eq colors k (by omega)
  · intro c
    refine ⟨_, glyph_index_ok _ _ (grey_le c) h1 h256,
      map_index_eq _ _ (grey_le c) h1 (by omega), ?_⟩
    have hlt := map_index_lt (grey c) ascii_map.length (grey_le c) h1 (by omega)
    unfold spec_glyph
    rw [List.getD_eq_getElem _ _ hlt, List.getElem?_eq_getElem hlt]

/-- The scenario of the specification: luminances `[0, 128, 255, 64]` on a `2 x 2` grid
with ramp `"AB"` give `"AA\nBA"`. -/
theorem ascii_image_scenario :
    ascii_image (Image.mk 2 2)
        [RGBA.mk 0 0 0 255, RGBA.mk 128 128 128 255, RGBA.mk 255 255 255 255,
          RGBA.mk 64 64 64 255] ['A', 'B']
      = .ok ['A', 'A', LF, 'B', 'A'] := by
  rw [ascii_image_eq _ _ _ (by decide) (by decide) (by decide) (by decide)]
  simp only [spec_glyph_eq ['A', 'B'] (by decide) (by decide)]
  exact congrArg Except.ok (by decide)

/-- C1, at a glyph ramp of 257 glyphs: on the one-pixel image of luminance 255 with the
ramp `a` followed by 256 times `b`, the claim's row is the single glyph at index
`255 * 256 / 255 = 256`, the last `b`; `ascii_image` computes `256.0f` and stores it in
`byte index`, which cannot hold it, so the run leaves defined behaviour and no `b` is
guaranteed (a build that keeps the low eight bits prints `a`, the glyph at index 0). -/
theorem C1_ascii_image_byte_index :
    ascii_image (Image.mk 1 1) [RGBA.mk 255 255 255 255] ('a' :: List.replicate 256 'b')
        = .error Fault.floatToByte ∧
      ('a' :: List.replicate 256 'b')[255 * (257 - 1) / 255]? = some 'b' := by
  constructor
  · have hl : ('a' :: List.replicate 256 'b').length = 257 := by
      simp only [List.length_cons, List.length_replicate]
    have hi : glyph_index 255 257 = .error Fault.floatToByte := by
      rw [glyph_index_eq 255 257 (by norm_num) (by norm_num) (by norm_num)]
      norm_num
    rw [ascii_image_single, grey_white, hl, hi]
    rfl
  · have h1 : ('a' :: List.replicate 256 'b')[255 + 1]? = (List.replicate 256 'b')[255]? :=
      List.getElem?_cons_succ
    have h2 : 255 * (257 - 1) / 255 = 255 + 1 := by norm_num
    rw [h2, h1, List.getElem?_replicate, if_pos (by norm_num)]

/-! ## C2: the walk of `print_color_ascii_fast` -/

/-- C2: for every grid of width at least `1`, every glyph ramp of `1` to `256` glyphs none
of which is the line break, and every colour ramp of `1` to `2^23` entries, `ascii_image`
produces a text buffer on which the walk of `print_color_ascii_fast` ends with pixel index
`width * height`, having built for every sample `k`, in order, the cell that carries the
glyph of sample `k` with the colour of sample `k` as foreground and `AUTO` as background;
these cells are handed to `put_line` as `height` rows of `width`; and the glyph and the
colour of a sample are the ramp entries at the indices the code computes with `map`. -/
theorem C2_print_color_ascii_fast (image : Image) (colors : List RGBA)
    (ascii_map : List Char) (colormap : List Color)
    (hw : 1 ≤ image.width) (hlen : colors.length = image.width * image.height)
    (g1 : 1 ≤ ascii_map.length) (g256 : ascii_map.length ≤ 256) (hLF : LF ∉ ascii_map)
    (h1 : 1 ≤ colormap.length) (hn : colormap.length ≤ 8388608) :
    ∃ text, ascii_image image colors ascii_map = .ok text ∧
      print_color_ascii_fast_walk text colors colormap
        = .ok (image.width * image.height,
            (List.range (image.width * image.height)).map
              (fun k => spec_tint_cell ascii_map colormap (pixel colors k))) ∧
      print_color_ascii_fast text colors image colormap
        = .ok ((List.range image.height).map (fun y => PutLine.mk 0 y
            ((List.range image.width).map (fun x =>
              spec_tint_cell ascii_map colormap (pixel colors (y * image.width + x)))))) ∧
      (∀ k, k < image.width * image.height → colors[k]? = some (pixel colors k)) ∧
      ∀ c : RGBA,
        (∃ i, glyph_index (grey c) ascii_map.length = .ok i ∧
          ascii_map[i]? = some (spec_glyph ascii_map c)) ∧
        (∃ i, color_index (grey c) colormap.length = .ok i ∧
          colormap[i]? = some (spec_color colormap c)) := by
  have hwalk := walk_with_breaks image.width colors ascii_map colormap h1 hn hLF
    (image.width * image.height) (by omega)
  refine ⟨_, ascii_image_eq image colors ascii_map hw hlen g1 g256, hwalk, ?_, ?_, ?_⟩
  · unfold print_color_ascii_fast
    rw [hwalk, ok_bind]
    exact put_lines_eq image (fun k => spec_tint_cell ascii_map colormap (pixel colors k)) hw
  · intro k hk
    exact pixel_eq colors k (by omega)
  · intro c
    constructor
    · refine ⟨_, glyph_index_ok _ _ (grey_le c) g1 g256, ?_⟩
      have hlt := map_index_lt (grey c) ascii_map.length (grey_le c) g1 (by omega)
      unfold spec_glyph
      rw [List.getD_eq_getElem _ _ hlt, List.getElem?_eq_getElem hlt]
    · refine ⟨_, color_index_ok _ _ (grey_le c) h1 hn, ?_⟩
      have hlt := map_index_lt (grey c) colormap.length (grey_le c) h1 hn
      unfold spec_color
      rw [List.getD_eq_getElem _ _ hlt, List.getElem?_eq_getElem hlt]

/-- C2 at the scenario of the specification (`2 x 2`, luminances `0, 128, 255, 64`, glyph
ramp `AB`) with the default colour ramp of `asciimage.cpp`. -/
theorem C2_print_color_ascii_fast_witness :
    ∃ text, ascii_image (Image.mk 2 2)
        [RGBA.mk 0 0 0 255, RGBA.mk 128 128 128 255, RGBA.mk 255 255 255 255,
          RGBA.mk 64 64 64 255] ['A', 'B'] = .ok text ∧
      print_color_ascii_fast_walk text
        [RGBA.mk 0 0 0 255, RGBA.mk 128 128 128 255, RGBA.mk 255 255 255 255,
          RGBA.mk 64 64 64 255] Asciimage.DEFAULT_COLOR_MAP
        = .ok (4, [WinPixel.mk 'A' (COLORS.mk BLACK AUTO), WinPixel.mk 'A' (COLORS.mk BLUE AUTO),
            WinPixel.mk 'B' (COLORS.mk WHITE AUTO), WinPixel.mk 'A' (COLORS.mk GREY AUTO)]) := by
  obtain ⟨text, h1, h2, _⟩ := C2_print_color_ascii_fast (Image.mk 2 2)
    [RGBA.mk 0 0 0 255, RGBA.mk 128 128 128 255, RGBA.mk 255 255 255 255,
      RGBA.mk 64 64 64 255] ['A', 'B'] Asciimage.DEFAULT_COLOR_MAP
    (by decide) (by decide) (by decide) (by decide) (by decide) (by decide) (by decide)
  refine ⟨text, h1, ?_⟩
  rw [h2]
  simp only [spec_tint_cell, spec_glyph_eq ['A', 'B'] (by decide) (by decide),
    spec_color_eq Asciimage.DEFAULT_COLOR_MAP (by decide) (by decide)]
  exact congrArg Except.ok (by decide)

/-- C2 fails as stated at three inputs. A glyph ramp that holds the line break: on a
one-pixel image with the ramp made of the line break alone the text buffer is that line
break, and the walk ends with pixel index `0`, not `1`, and no cell. A glyph ramp of 257
glyphs: `ascii_image` leaves defined behaviour and there is no text buffer to walk. A
colour ramp of 8422017 entries: in binary32 the product `255 * 8422016` and its quotient by
`255` both round up, the index computed for luminance 255 is `8422017`, one past the last
entry. -/
theorem C2_counterexample :
    (ascii_image (Image.mk 1 1) [RGBA.mk 0 0 0 255] [LF] = .ok [LF] ∧
      print_color_ascii_fast_walk [LF] [RGBA.mk 0 0 0 255] [BLACK] = .ok (0, []) ∧
      (0 : ℕ) ≠ 1 * 1) ∧
    ascii_image (Image.mk 1 1) [RGBA.mk 255 255 255 255] ('a' :: List.replicate 256 'b')
      = .error Fault.floatToByte ∧
    print_color_ascii_fast_walk ['b'] [RGBA.mk 255 255 255 255]
        (List.replicate 8422017 BLACK)
      = .error (Fault.vectorOutOfRange 8422017) := by
  refine ⟨⟨?_, ?_, by decide⟩, ?_, ?_⟩
  · rw [ascii_image_single, grey_black, glyph_index_zero, ok_bind]
    rfl
  · rfl
  · have hl : ('a' :: List.replicate 256 'b').length = 257 := by
      simp only [List.length_cons, List.length_replicate]
    have hi : glyph_index 255 257 = .error Fault.floatToByte := by
      rw [glyph_index_eq 255 257 (by norm_num) (by norm_num) (by norm_num)]
      norm_num
    rw [ascii_image_single, grey_white, hl, hi]
    rfl
  · rw [print_color_ascii_fast_walk_single _ _ _ (by decide), grey_white,
      List.length_replicate, color_index_255_8422017, ok_bind, vector_at_replicate_end]
    rfl

/-! ## C3: the per-cell walk `print_color_ascii` -/

theorem with_breaks_extend {α : Type} (w : ℕ) (sep : α) (f : ℕ → α) (k m : ℕ) :
    ∃ rest, with_breaks w sep f (k + m) = with_breaks w sep f k ++ rest := by
  induction m with
  | zero => exact ⟨[], by simp⟩
  | succ m ih =>
    obtain ⟨rest, hrest⟩ := ih
    refine ⟨rest ++ (if k + m ≠ 0 ∧ (k + m) % w = 0 then [sep] else []) ++ [f (k + m)], ?_⟩
    rw [show k + (m + 1) = (k + m) + 1 from rfl, with_breaks, hrest]
    simp

theorem getElem?_append_cons {α : Type} (l : List α) (a : α) (r : List α) :
    (l ++ a :: r)[l.length]? = some a := by
  rw [List.getElem?_append_right (le_refl _)]
  simp

/-- In the text buffer, the position that equals the length of the output for the first
`k` samples holds the line break when sample `k` starts a row other than the first, else
the glyph of sample `k`. -/
theorem with_breaks_at {α : Type} (w : ℕ) (sep : α) (f : ℕ → α) (k N : ℕ) (hk : k < N) :
    (with_breaks w sep f N)[(with_breaks w sep f k).length]?
      = some (if k ≠ 0 ∧ k % w = 0 then sep else f k) := by
  obtain ⟨rest, hrest⟩ := with_breaks_extend w sep f (k + 1) (N - (k + 1))
  rw [show k + 1 + (N - (k + 1)) = N by omega] at hrest
  rw [hrest, with_breaks]
  by_cases hb : k ≠ 0 ∧ k % w = 0
  · simp only [if_pos hb, List.append_assoc, List.singleton_append, List.cons_append]
    exact getElem?_append_cons _ _ _
  · simp only [if_neg hb, List.append_assoc, List.singleton_append, List.cons_append,
      List.nil_append]
    exact getElem?_append_cons _ _ _

theorem string_at_some (s : List Char) (i : ℕ) (c : Char) (h : s[i]? = some c) :
    string_at s i = .ok c := by
  simp [string_at, h]

theorem print_color_ascii_body_eq (w N : ℕ) (colors : List RGBA) (ascii_map : List Char)
    (colormap : List Color) (h1 : 1 ≤ colormap.length) (hn : colormap.length ≤ 8388608)
    (hLF : LF ∉ ascii_map) (k : ℕ) (hkN : k < N)
    (hk : k < colors.length) :
    print_color_ascii_body
        (with_breaks w LF (fun i => spec_glyph ascii_map (pixel colors i)) N) colors colormap
        ((with_breaks w LF (fun i => spec_glyph ascii_map (pixel colors i)) k).length,
          (List.range k).map (fun j => if j ≠ 0 ∧ j % w = 0 then ConsoleOp.putchar LF
            else ConsoleOp.put (spec_glyph ascii_map (pixel colors j))
              (COLORS.mk (spec_color colormap (pixel colors j)) AUTO))) k
      = .ok ((with_breaks w LF (fun i => spec_glyph ascii_map (pixel colors i)) (k + 1)).length,
          (List.range (k + 1)).map (fun j => if j ≠ 0 ∧ j % w = 0 then ConsoleOp.putchar LF
            else ConsoleOp.put (spec_glyph ascii_map (pixel colors j))
              (COLORS.mk (spec_color colormap (pixel colors j)) AUTO))) := by
  unfold print_color_ascii_body
  simp only []
  rw [string_at_some _ _ _
    (with_breaks_at w LF (fun i => spec_glyph ascii_map (pixel colors i)) k N hkN), ok_bind,
    List.range_succ, List.map_append, List.map_singleton]
  conv_rhs => rw [with_breaks]
  by_cases hb : k ≠ 0 ∧ k % w = 0
  · simp only [if_pos hb, List.length_append, List.length_singleton]
    rfl
  · have hne : spec_glyph ascii_map (pixel colors k) ≠ LF := spec_glyph_ne_LF ascii_map _ hLF
    simp only [if_neg hb, List.length_append, List.length_singleton, List.length_nil]
    rw [if_neg hne, colors_at_eq colors k hk, ok_bind,
      color_index_ok _ _ (grey_le _) h1 hn, ok_bind,
      vector_at_eq _ _ (map_index_lt _ _ (grey_le _) h1 hn), ok_bind]
    rfl

/-- The console writes of `print_color_ascii` on the text buffer of `ascii_image`: for
every sample in order, a line break in place of the cell when the sample starts a row
other than the first, else the cell of the sample. -/
theorem print_color_ascii_eq (image : Image) (colors : List RGBA) (ascii_map : List Char)
    (colormap : List Color) (hlen : colors.length = image.width * image.height)
    (hLF : LF ∉ ascii_map)
    (h1 : 1 ≤ colormap.length) (hn : colormap.length ≤ 8388608) :
    print_color_ascii
        (with_breaks image.width LF (fun i => spec_glyph ascii_map (pixel colors i))
          (image.width * image.height)) colors image colormap
      = .ok ((List.range (image.width * image.height)).map
          (fun j => if j ≠ 0 ∧ j % image.width = 0 then ConsoleOp.putchar LF
            else ConsoleOp.put (spec_glyph ascii_map (pixel colors j))
              (COLORS.mk (spec_color colormap (pixel colors j)) AUTO))) := by
  unfold print_color_ascii Image.image_size
  have h := foldlM_range_ok
    (print_color_ascii_body
      (with_breaks image.width LF (fun i => spec_glyph ascii_map (pixel colors i))
        (image.width * image.height)) colors colormap)
    (fun k => ((with_breaks image.width LF
        (fun i => spec_glyph ascii_map (pixel colors i)) k).length,
      (List.range k).map (fun j => if j ≠ 0 ∧ j % image.width = 0 then ConsoleOp.putchar LF
        else ConsoleOp.put (spec_glyph ascii_map (pixel colors j))
          (COLORS.mk (spec_color colormap (pixel colors j)) AUTO))))
    (image.width * image.height)
    (fun k hk => print_color_ascii_body_eq image.width (image.width * image.height) colors
      ascii_map colormap h1 hn hLF k hk (by omega))
  simp only [with_breaks, List.length_nil, List.range_zero, List.map_nil] at h
  rw [h]
  rfl

/-- C3, on the scenario of the specification (`2 x 2`, luminances `0, 128, 255, 64`, glyph
ramp `AB`, text buffer `AA\nBA`) with the default colour ramp of `asciimage_loop.cpp`:
`print_color_ascii` writes three cells, not four. At the line break the round ends with
`continue` after `ascii_index += 2`, so the loop header advances the pixel index and the
glyph after the break is stepped over: the glyph `B` of sample 2 is never written and row
1 holds one cell. -/
theorem C3_print_color_ascii_skips_cell :
    ascii_image (Image.mk 2 2)
        [RGBA.mk 0 0 0 255, RGBA.mk 128 128 128 255, RGBA.mk 255 255 255 255,
          RGBA.mk 64 64 64 255] ['A', 'B'] = .ok ['A', 'A', LF, 'B', 'A'] ∧
      print_color_ascii ['A', 'A', LF, 'B', 'A']
        [RGBA.mk 0 0 0 255, RGBA.mk 128 128 128 255, RGBA.mk 255 255 255 255,
          RGBA.mk 64 64 64 255] (Image.mk 2 2) AsciimageLoop.DEFAULT_COLOR_MAP
        = .ok [ConsoleOp.put 'A' (COLORS.mk BLACK AUTO), ConsoleOp.put 'A' (COLORS.mk BLUE AUTO),
            ConsoleOp.putchar LF, ConsoleOp.put 'A' (COLORS.mk BLACK AUTO)] := by
  have hg : (fun i => spec_glyph ['A', 'B'] (pixel
      [RGBA.mk 0 0 0 255, RGBA.mk 128 128 128 255, RGBA.mk 255 255 255 255,
        RGBA.mk 64 64 64 255] i))
      = (fun i => ['A', 'B'].getD (grey (pixel
      [RGBA.mk 0 0 0 255, RGBA.mk 128 128 128 255, RGBA.mk 255 255 255 255,
        RGBA.mk 64 64 64 255] i) * (['A', 'B'].length - 1) / 255) NUL) :=
    funext (fun i => spec_glyph_eq ['A', 'B'] (by decide) (by decide) _)
  have ht : with_breaks (Image.mk 2 2).width LF (fun i => spec_glyph ['A', 'B'] (pixel
      [RGBA.mk 0 0 0 255, RGBA.mk 128 128 128 255, RGBA.mk 255 255 255 255,
        RGBA.mk 64 64 64 255] i)) ((Image.mk 2 2).width * (Image.mk 2 2).height)
      = ['A', 'A', LF, 'B', 'A'] := by
    rw [hg]
    decide
  constructor
  · rw [ascii_image_eq _ _ _ (by decide) (by decide) (by decide) (by decide), ht]
  · have h := print_color_ascii_eq (Image.mk 2 2)
      [RGBA.mk 0 0 0 255, RGBA.mk 128 128 128 255, RGBA.mk 255 255 255 255,
        RGBA.mk 64 64 64 255] ['A', 'B'] AsciimageLoop.DEFAULT_COLOR_MAP
      (by decide) (by decide) (by decide) (by decide)
    rw [ht] at h
    rw [h]
    simp only [spec_glyph_eq ['A', 'B'] (by decide) (by decide),
      spec_color_eq AsciimageLoop.DEFAULT_COLOR_MAP (by decide) (by decide)]
    exact congrArg Except.ok (by decide)

/-! ## C4: the index stays inside the ramp -/

/-- C4: for every luminance `v` in `[0, 255]` and every ramp length `n` from `1` to `2^23`,
the index the colour renderers compute, `static_cast<size_t>(map(v, 0, 255, 0, n - 1))`,
is defined and at most `n - 1`; for `n` up to `65536` it is the integer quotient
`v * (n - 1) / 255`; for `n` up to `256` the `byte` index of `ascii_image` is defined and
is the same number; and for `n = 1` both indices are `0`. -/
theorem C4_index_in_range (v n : ℕ) (hv : v ≤ 255) (h1 : 1 ≤ n) (hn : n ≤ 8388608) :
    (∃ i, color_index v n = .ok i ∧ i ≤ n - 1 ∧ (n ≤ 65536 → i = v * (n - 1) / 255)) ∧
      (n ≤ 256 → ∃ i, glyph_index v n = .ok i ∧ i ≤ n - 1 ∧ i = v * (n - 1) / 255) ∧
      (n = 1 → color_index v n = .ok 0 ∧ glyph_index v n = .ok 0) := by
  refine ⟨⟨_, color_index_ok v n hv h1 hn, map_index_le v n hv h1 hn, ?_⟩, ?_, ?_⟩
  · intro h
    exact map_index_eq v n hv h1 h
  · intro h256
    exact ⟨_, glyph_index_small v n hv h1 h256, index_le v n hv, rfl⟩
  · intro hn1
    subst hn1
    constructor
    · rw [color_index_eq v 1 hv (by norm_num) (by norm_num)]; simp
    · rw [glyph_index_small v 1 hv (by norm_num) (by norm_num)]; simp

/-- C4 at luminance 128 and the default glyph ramp length 7: index `128 * 6 / 255 = 3`. -/
theorem C4_index_in_range_witness :
    (∃ i, color_index 128 7 = .ok i ∧ i ≤ 7 - 1 ∧ (7 ≤ 65536 → i = 128 * (7 - 1) / 255)) ∧
      (7 ≤ 256 → ∃ i, glyph_index 128 7 = .ok i ∧ i ≤ 7 - 1 ∧ i = 128 * (7 - 1) / 255) ∧
      (7 = 1 → color_index 128 7 = .ok 0 ∧ glyph_index 128 7 = .ok 0) :=
  C4_index_in_range 128 7 (by norm_num) (by norm_num) (by norm_num)

/-- C4 fails as stated at luminance `255` for the ramp lengths `8422017` and `16777220`.
At `n = 8422017` the product `255 * 8422016` lies halfway between two binary32 values and
rounds up, and its quotient by `255` rounds up to `8422017`. At `n = 16777220` the bound
`n - 1 = 16777219` is not a binary32 value and converts to `16777220`. In both cases the
index is `n`, which is not at most `n - 1`. -/
theorem C4_counterexample :
    (color_index 255 8422017 = .ok 8422017 ∧ ¬ (8422017 ≤ 8422017 - 1)) ∧
      (color_index 255 16777220 = .ok 16777220 ∧ ¬ (16777220 ≤ 16777220 - 1)) :=
  ⟨⟨color_index_255_8422017, by norm_num⟩, ⟨color_index_255_16777220, by norm_num⟩⟩

/-! ## C5: the colour-map decoder -/

theorem foldl_push {α β : Type} (f : α → β) (s : List α) (init : List β) :
    s.foldl (fun acc a => acc ++ [f a]) init = init ++ s.map f := by
  induction s generalizing init with
  | nil => simp
  | cons a s ih => simp [ih]

theorem decode_colormap_eq (s : List Char) : decode_colormap s = s.map decode_color := by
  unfold decode_colormap
  rw [foldl_push]
  simp

/-- C5: the decoder maps the characters of every colour-map string one by one and in
order (the result is the list of the images of the characters, of the same length);
`'0'..'9'` go to `0..9`, `'A'..'F'` go to `10..15`; and `"0193BF"` decodes to
`[0, 1, 9, 3, 11, 15]`. -/
theorem C5_decode_colormap :
    (∀ s : List Char, decode_colormap s = s.map decode_color ∧
      (decode_colormap s).length = s.length) ∧
    (∀ ch : Char, '0'.toNat ≤ ch.toNat → ch.toNat ≤ '9'.toNat →
      decode_color ch = (ch.toNat : ℤ) - ('0'.toNat : ℤ) ∧
        0 ≤ decode_color ch ∧ decode_color ch ≤ 9) ∧
    (∀ ch : Char, 'A'.toNat ≤ ch.toNat → ch.toNat ≤ 'F'.toNat →
      decode_color ch = (ch.toNat : ℤ) - ('A'.toNat : ℤ) + 10 ∧
        10 ≤ decode_color ch ∧ decode_color ch ≤ 15) ∧
    decode_colormap ['0', '1', '9', '3', 'B', 'F'] = [0, 1, 9, 3, 11, 15] := by
  have hA : 'A'.toNat = 65 := by decide
  have hF : 'F'.toNat = 70 := by decide
  have h0 : '0'.toNat = 48 := by decide
  have h9 : '9'.toNat = 57 := by decide
  refine ⟨?_, ?_, ?_, by decide⟩
  · intro s
    rw [decode_colormap_eq]
    simp
  · intro ch hlo hhi
    rw [h0] at hlo
    rw [h9] at hhi
    unfold decode_color
    rw [hA, hF, h0, if_neg (by omega)]
    refine ⟨rfl, ?_, ?_⟩
    · show (0 : ℤ) ≤ (ch.toNat : ℤ) - ((48 : ℕ) : ℤ)
      omega
    · show (ch.toNat : ℤ) - ((48 : ℕ) : ℤ) ≤ (9 : ℤ)
      omega
  · intro ch hlo hhi
    rw [hA] at hlo
    rw [hF] at hhi
    unfold decode_color
    rw [hA, hF, if_pos ⟨hlo, hhi⟩]
    refine ⟨rfl, ?_, ?_⟩
    · show (10 : ℤ) ≤ (ch.toNat : ℤ) - ((65 : ℕ) : ℤ) + 10
      omega
    · show (ch.toNat : ℤ) - ((65 : ℕ) : ℤ) + 10 ≤ (15 : ℤ)
      omega

/-! ## C6: block-colour mode -/

/-- C6: for every grid of width at least `1` and every colour ramp of `1` to `2^23`
entries, `print_color_image_fast` hands `put_line` the `height` rows of `width` cells in
which the cell of row `y`, column `x` is a space with foreground `AUTO` on the colour of
sample `y * width + x`; `print_color_image` writes the same cells in the same order, cell
by cell, with one line break between consecutive rows; and the colour of a sample is the
ramp entry at the index the code computes with `map`. -/
theorem C6_block_color (image : Image) (colors : List RGBA) (colormap : List Color)
    (hw : 1 ≤ image.width) (hlen : colors.length = image.width * image.height)
    (h1 : 1 ≤ colormap.length) (hn : colormap.length ≤ 8388608) :
    ∃ calls, print_color_image_fast image colors colormap = .ok calls ∧
      calls = (List.range image.height).map (fun y => PutLine.mk 0 y
        ((List.range image.width).map (fun x =>
          WinPixel.mk ' ' (COLORS.mk AUTO
            (spec_color colormap (pixel colors (y * image.width + x))))))) ∧
      print_color_image image colors colormap
        = .ok (List.intercalate [ConsoleOp.putchar LF]
            (calls.map (fun line => line.cells.map (fun p => ConsoleOp.put p.ch p.colors)))) ∧
      (∀ k, k < image.width * image.height → colors[k]? = some (pixel colors k)) ∧
      ∀ c : RGBA, ∃ i, color_index (grey c) colormap.length = .ok i ∧
        colormap[i]? = some (spec_color colormap c) := by
  refine ⟨_, print_color_image_fast_eq image colors colormap hw hlen h1 hn, rfl, ?_, ?_, ?_⟩
  · rw [print_color_image_eq image colors colormap hw hlen h1 hn,
      Nat.mul_comm image.width image.height, with_breaks_grid _ _ _ hw]
    congr 2
    unfold grid_rows
    simp [List.map_map, spec_block_cell, Function.comp_def]
  · intro k hk
    exact pixel_eq colors k (by omega)
  · intro c
    refine ⟨_, color_index_ok _ _ (grey_le c) h1 hn, ?_⟩
    have hlt := map_index_lt (grey c) colormap.length (grey_le c) h1 hn
    unfold spec_color
    rw [List.getD_eq_getElem _ _ hlt, List.getElem?_eq_getElem hlt]

/-- C6 at the `2 x 2` grid with luminances `0, 128, 255, 64` and the default colour ramp of
`asciimage.cpp`. -/
theorem C6_block_color_witness :
    ∃ calls, print_color_image_fast (Image.mk 2 2)
        [RGBA.mk 0 0 0 255, RGBA.mk 128 128 128 255, RGBA.mk 255 255 255 255,
          RGBA.mk 64 64 64 255] Asciimage.DEFAULT_COLOR_MAP = .ok calls ∧
      calls = [PutLine.mk 0 0 [WinPixel.mk ' ' (COLORS.mk AUTO BLACK),
                  WinPixel.mk ' ' (COLORS.mk AUTO BLUE)],
               PutLine.mk 0 1 [WinPixel.mk ' ' (COLORS.mk AUTO WHITE),
                  WinPixel.mk ' ' (COLORS.mk AUTO GREY)]] ∧
      print_color_image (Image.mk 2 2)
        [RGBA.mk 0 0 0 255, RGBA.mk 128 128 128 255, RGBA.mk 255 255 255 255,
          RGBA.mk 64 64 64 255] Asciimage.DEFAULT_COLOR_MAP
        = .ok (List.intercalate [ConsoleOp.putchar LF]
            (calls.map (fun line => line.cells.map (fun p => ConsoleOp.put p.ch p.colors)))) := by
  obtain ⟨calls, h1, h2, h3, _⟩ := C6_block_color (Image.mk 2 2)
    [RGBA.mk 0 0 0 255, RGBA.mk 128 128 128 255, RGBA.mk 255 255 255 255,
      RGBA.mk 64 64 64 255] Asciimage.DEFAULT_COLOR_MAP
    (by decide) (by decide) (by decide) (by decide)
  refine ⟨calls, h1, ?_, h3⟩
  rw [h2]
  simp only [spec_color_eq Asciimage.DEFAULT_COLOR_MAP (by decide) (by decide)]
  decide

/-- C6 fails as stated at the colour ramps of 8422017 and of 16777220 entries: on the
one-pixel image of luminance 255 the index computed in binary32 is the size of the ramp,
one past its last entry (for 8422017 the product `255 * 8422016` and its quotient by `255`
both round up; for 16777220 the bound `16777219` is not a `float` and converts to
`16777220`), and the read of the ramp leaves defined behaviour. -/
theorem C6_counterexample :
    print_color_image_fast (Image.mk 1 1) [RGBA.mk 255 255 255 255]
        (List.replicate 8422017 BLACK)
      = .error (Fault.vectorOutOfRange 8422017) ∧
    print_color_image_fast (Image.mk 1 1) [RGBA.mk 255 255 255 255]
        (List.replicate 16777220 BLACK)
      = .error (Fault.vectorOutOfRange 16777220) := by
  constructor
  · rw [print_color_image_fast_single, grey_white, List.length_replicate,
      color_index_255_8422017, ok_bind, vector_at_replicate_end]
    rfl
  · rw [print_color_image_fast_single, grey_white, List.length_replicate,
      color_index_255_16777220, ok_bind, vector_at_replicate_end]
    rfl

/-! ## C7: the colours of the emitted cells -/

theorem foldlM_invariant {σ α : Type} (f : σ → α → Except Fault σ) (P : σ → Prop)
    (hstep : ∀ s a s', P s → f s a = .ok s' → P s') (l : List α) :
    ∀ s res, P s → l.foldlM f s = .ok res → P res := by
  induction l with
  | nil =>
    intro s res hs h
    have : s = res := by
      have h2 : (Except.ok s : Except Fault σ) = .ok res := h
      exact Except.ok.inj h2
    exact this ▸ hs
  | cons a l ih =>
    intro s res hs h
    rw [List.foldlM_cons] at h
    cases hf : f s a with
    | error e =>
      rw [hf, error_bind] at h
      exact absurd h (by simp)
    | ok s' =>
      rw [hf, ok_bind] at h
      exact ih s' res (hstep s a s' hs hf) h

theorem vector_at_mem {α : Type} (v : List α) (i : ℕ) (a : α) (h : vector_at v i = .ok a) :
    a ∈ v := by
  unfold vector_at at h
  cases hv : v[i]? with
  | none => rw [hv] at h; exact absurd h (by simp)
  | some c =>
    rw [hv] at h
    have : c = a := Except.ok.inj h
    exact this ▸ List.getElem?_mem hv

theorem print_color_image_fast_body_inv (colors : List RGBA) (colormap : List Color)
    (pixels pixels2 : List WinPixel) (i : ℕ)
    (h : print_color_image_fast_body colors colormap pixels i = .ok pixels2) :
    ∃ color ∈ colormap, pixels2 = pixels ++ [WinPixel.mk ' ' (COLORS.mk AUTO color)] := by
  unfold print_color_image_fast_body at h
  cases h1 : colors_at colors i with
  | error e => rw [h1, error_bind] at h; exact absurd h (by simp)
  | ok c =>
    rw [h1, ok_bind] at h
    cases h2 : color_index (grey c) colormap.length with
    | error e => rw [h2, error_bind] at h; exact absurd h (by simp)
    | ok index =>
      rw [h2, ok_bind] at h
      cases h3 : vector_at colormap index with
      | error e => rw [h3, error_bind] at h; exact absurd h (by simp)
      | ok color =>
        rw [h3, ok_bind] at h
        exact ⟨color, vector_at_mem _ _ _ h3, (Except.ok.inj h).symm⟩

theorem print_color_ascii_fast_body_inv (colors : List RGBA) (colormap : List Color)
    (st st2 : ℕ × List WinPixel) (ch : Char)
    (h : print_color_ascii_fast_body colors colormap st ch = .ok st2) :
    st2.2 = st.2 ∨ ∃ color ∈ colormap, st2.2 = st.2 ++ [WinPixel.mk ch (COLORS.mk color AUTO)] := by
  unfold print_color_ascii_fast_body at h
  by_cases hch : ch = LF
  · rw [if_pos hch] at h
    left
    rw [← Except.ok.inj h]
  · rw [if_neg hch] at h
    right
    cases h1 : colors_at colors st.1 with
    | error e => rw [h1, error_bind] at h; exact absurd h (by simp)
    | ok c =>
      rw [h1, ok_bind] at h
      cases h2 : color_index (grey c) colormap.length with
      | error e => rw [h2, error_bind] at h; exact absurd h (by simp)
      | ok index =>
        rw [h2, ok_bind] at h
        cases h3 : vector_at colormap index with
        | error e => rw [h3, error_bind] at h; exact absurd h (by simp)
        | ok color =>
          rw [h3, ok_bind] at h
          refine ⟨color, vector_at_mem _ _ _ h3, ?_⟩
          rw [← Except.ok.inj h]

theorem put_lines_mem (image : Image) (pixels : List WinPixel) (calls : List PutLine)
    (h : put_lines image pixels = .ok calls) :
    ∀ line ∈ calls, ∀ p ∈ line.cells, p ∈ pixels := by
  unfold put_lines at h
  refine foldlM_invariant _ (fun out => ∀ line ∈ out, ∀ p ∈ line.cells, p ∈ pixels) ?_
    (List.range image.height) [] calls (by simp) h
  intro out y out2 hout hy
  cases hs : pixels_slice pixels (y * image.width) image.width with
  | error e =>
    simp only [hs] at hy
    rw [error_bind] at hy
    exact absurd hy (by simp)
  | ok cells =>
    simp only [hs] at hy
    rw [ok_bind] at hy
    have hout2 : out2 = out ++ [PutLine.mk 0 y cells] := (Except.ok.inj hy).symm
    have hcells : ∀ p ∈ cells, p ∈ pixels := by
      intro p hp
      unfold pixels_slice at hs
      split_ifs at hs
      have : (pixels.drop (y * image.width)).take image.width = cells := Except.ok.inj hs
      rw [← this] at hp
      exact List.mem_of_mem_drop (List.mem_of_mem_take hp)
    intro line hline p hp
    rw [hout2, List.mem_append, List.mem_singleton] at hline
    rcases hline with hl | hl
    · exact hout line hl p hp
    · rw [hl] at hp
      exact hcells p hp

theorem decode_color_palette (ch : Char) (h : palette_digit ch) :
    0 ≤ decode_color ch ∧ decode_color ch ≤ 15 := by
  have hA : 'A'.toNat = 65 := by decide
  have hF : 'F'.toNat = 70 := by decide
  have h0 : '0'.toNat = 48 := by decide
  have h9 : '9'.toNat = 57 := by decide
  unfold palette_digit at h
  rw [hA, hF, h0, h9] at h
  unfold decode_color
  rw [hA, hF, h0]
  rcases h with ⟨h1, h2⟩ | ⟨h1, h2⟩
  · rw [if_neg (by omega)]
    constructor
    · show (0 : ℤ) ≤ (ch.toNat : ℤ) - ((48 : ℕ) : ℤ)
      omega
    · show (ch.toNat : ℤ) - ((48 : ℕ) : ℤ) ≤ (15 : ℤ)
      omega
  · rw [if_pos ⟨h1, h2⟩]
    constructor
    · show (0 : ℤ) ≤ (ch.toNat : ℤ) - ((65 : ℕ) : ℤ) + 10
      omega
    · show (ch.toNat : ℤ) - ((65 : ℕ) : ℤ) + 10 ≤ (15 : ℤ)
      omega

theorem program_ramp_palette (colormap : List Color)
    (hcm : colormap = Asciimage.DEFAULT_COLOR_MAP ∨
      ∃ s : List Char, (∀ ch ∈ s, palette_digit ch) ∧ colormap = decode_colormap s) :
    ∀ color ∈ colormap, 0 ≤ color ∧ color ≤ 15 := by
  rcases hcm with h | ⟨s, hs, h⟩
  · rw [h]; decide
  · rw [h, decode_colormap_eq]
    intro color hc
    rw [List.mem_map] at hc
    obtain ⟨ch, hch, rfl⟩ := hc
    exact decode_color_palette ch (hs ch hch)

theorem foldlM_range_inv {σ : Type} (f : σ → ℕ → Except Fault σ) (P : ℕ → σ → Prop)
    (init : σ) (h0 : P 0 init)
    (hstep : ∀ k s s', P k s → f s k = .ok s' → P (k + 1) s') (N : ℕ) :
    ∀ res, (List.range N).foldlM f init = .ok res → P N res := by
  induction N with
  | zero =>
    intro res h
    have h2 : (Except.ok init : Except Fault σ) = .ok res := h
    exact Except.ok.inj h2 ▸ h0
  | succ n ih =>
    intro res h
    rw [List.range_succ, List.foldlM_append] at h
    cases hf : (List.range n).foldlM f init with
    | error e => rw [hf, error_bind] at h; exact absurd h (by simp)
    | ok s =>
      rw [hf, ok_bind] at h
      simp only [List.foldlM_cons, List.foldlM_nil] at h
      cases hg : f s n with
      | error e => rw [hg, error_bind] at h; exact absurd h (by simp)
      | ok s' =>
        rw [hg, ok_bind] at h
        have h2 : s' = res := Except.ok.inj h
        exact h2 ▸ hstep n s s' (ih s hf) hg

/-- A defined colour look-up for pixel `k` has read the sample `pixel colors k`, computed
its ramp index with `color_index`, and read the ramp entry `spec_color` at that index. -/
theorem sample_color_inv (colors : List RGBA) (colormap : List Color) (k : ℕ) (c : RGBA)
    (index : ℕ) (color : Color) (h1 : colors_at colors k = .ok c)
    (h2 : color_index (grey c) colormap.length = .ok index)
    (h3 : vector_at colormap index = .ok color) :
    color = spec_color colormap (pixel colors k) ∧
      colors[k]? = some (pixel colors k) ∧
      color_index (grey (pixel colors k)) colormap.length = .ok index ∧
      colormap[index]? = some (spec_color colormap (pixel colors k)) := by
  have hc : colors[k]? = some c := by
    unfold colors_at at h1
    cases hv : colors[k]? with
    | none => rw [hv] at h1; exact absurd h1 (by simp)
    | some c2 =>
      rw [hv] at h1
      rw [Except.ok.inj h1]
  have hp : pixel colors k = c := by
    unfold pixel
    rw [List.getD_eq_getElem?_getD, hc]
    rfl
  have hi : index = map_index (grey c) colormap.length := by
    unfold color_index float_to_size at h2
    unfold map_index
    split_ifs at h2
    exact (Except.ok.inj h2).symm
  have hv : colormap[index]? = some color := by
    unfold vector_at at h3
    cases hv : colormap[index]? with
    | none => rw [hv] at h3; exact absurd h3 (by simp)
    | some c2 =>
      rw [hv] at h3
      rw [Except.ok.inj h3]
  have hs : spec_color colormap c = color := by
    unfold spec_color
    rw [← hi, List.getD_eq_getElem?_getD, hv]
    rfl
  rw [hp, hs]
  exact ⟨rfl, hc, h2, hv⟩

/-- A defined round of the first loop of `print_color_image_fast` appends the cell of
pixel `i`: a space with foreground `AUTO` and the computed colour of the pixel as
background. -/
theorem print_color_image_fast_body_exact (colors : List RGBA) (colormap : List Color)
    (pixels pixels2 : List WinPixel) (i : ℕ)
    (h : print_color_image_fast_body colors colormap pixels i = .ok pixels2) :
    pixels2 = pixels ++ [spec_block_cell colormap (pixel colors i)] ∧
      ∃ index, colors[i]? = some (pixel colors i) ∧
        color_index (grey (pixel colors i)) colormap.length = .ok index ∧
        colormap[index]? = some (spec_color colormap (pixel colors i)) := by
  unfold print_color_image_fast_body at h
  cases h1 : colors_at colors i with
  | error e => rw [h1, error_bind] at h; exact absurd h (by simp)
  | ok c =>
    rw [h1, ok_bind] at h
    cases h2 : color_index (grey c) colormap.length with
    | error e => rw [h2, error_bind] at h; exact absurd h (by simp)
    | ok index =>
      rw [h2, ok_bind] at h
      cases h3 : vector_at colormap index with
      | error e => rw [h3, error_bind] at h; exact absurd h (by simp)
      | ok color =>
        rw [h3, ok_bind] at h
        obtain ⟨hc, ha, hb, hd⟩ := sample_color_inv colors colormap i c index color h1 h2 h3
        refine ⟨?_, index, ha, hb, hd⟩
        rw [← Except.ok.inj h, hc]
        rfl

/-- A defined run of the first loop of `print_color_image_fast` over `N` pixels has built
the cells of the pixels `0, ..., N - 1` in order, each from the computed colour of its
own pixel. -/
theorem print_color_image_fast_loop_exact (colors : List RGBA) (colormap : List Color)
    (N : ℕ) (pixels : List WinPixel)
    (h : (List.range N).foldlM (print_color_image_fast_body colors colormap) [] = .ok pixels) :
    pixels = (List.range N).map (fun k => spec_block_cell colormap (pixel colors k)) ∧
      ∀ k, k < N → ∃ index, colors[k]? = some (pixel colors k) ∧
        color_index (grey (pixel colors k)) colormap.length = .ok index ∧
        colormap[index]? = some (spec_color colormap (pixel colors k)) := by
  refine foldlM_range_inv (print_color_image_fast_body colors colormap)
    (fun n pixels =>
      pixels = (List.range n).map (fun k => spec_block_cell colormap (pixel colors k)) ∧
      ∀ k, k < n → ∃ index, colors[k]? = some (pixel colors k) ∧
        color_index (grey (pixel colors k)) colormap.length = .ok index ∧
        colormap[index]? = some (spec_color colormap (pixel colors k)))
    [] ⟨rfl, fun k hk => absurd hk (by omega)⟩ ?_ N pixels h
  intro n s s2 hs hstep
  obtain ⟨hs2, hfact⟩ := print_color_image_fast_body_exact colors colormap s s2 n hstep
  constructor
  · rw [hs2, hs.1, List.range_succ, List.map_append, List.map_singleton]
  · intro k hk
    by_cases hkn : k < n
    · exact hs.2 k hkn
    · have : k = n := by omega
      rw [this]
      exact hfact

/-- A defined closing loop has handed row `y` the `width` cells from position
`y * width` on, for every row, and all of them exist. -/
theorem put_lines_exact (image : Image) (pixels : List WinPixel) (calls : List PutLine)
    (h : put_lines image pixels = .ok calls) :
    calls = (List.range image.height).map (fun y =>
        PutLine.mk 0 y ((pixels.drop (y * image.width)).take image.width)) ∧
      ∀ y, y < image.height → y * image.width + image.width ≤ pixels.length := by
  unfold put_lines at h
  refine foldlM_range_inv _
    (fun n out =>
      out = (List.range n).map (fun y =>
        PutLine.mk 0 y ((pixels.drop (y * image.width)).take image.width)) ∧
      ∀ y, y < n → y * image.width + image.width ≤ pixels.length)
    [] ⟨rfl, fun y hy => absurd hy (by omega)⟩ ?_ image.height calls h
  intro n out out2 hout hy
  cases hs : pixels_slice pixels (n * image.width) image.width with
  | error e =>
    simp only [hs] at hy
    rw [error_bind] at hy
    exact absurd hy (by simp)
  | ok cells =>
    simp only [hs] at hy
    rw [ok_bind] at hy
    have hout2 : out2 = out ++ [PutLine.mk 0 n cells] := (Except.ok.inj hy).symm
    unfold pixels_slice at hs
    split_ifs at hs with hc
    have hcells : (pixels.drop (n * image.width)).take image.width = cells := Except.ok.inj hs
    constructor
    · rw [hout2, hout.1, List.range_succ, List.map_append, List.map_singleton, hcells]
    · intro y hy2
      by_cases hyn : y < n
      · exact hout.2 y hyn
      · have : y = n := by omega
        rw [this]
        exact hc.2

/-- Every defined run of `print_color_image_fast` has emitted, for row `y` and column
`x`, the cell of pixel `y * width + x`: a space with foreground `AUTO` and the computed
colour of that pixel as background. -/
theorem print_color_image_fast_exact (image : Image) (colors : List RGBA)
    (colormap : List Color) (calls : List PutLine)
    (h : print_color_image_fast image colors colormap = .ok calls) :
    calls = (List.range image.height).map (fun y => PutLine.mk 0 y
        ((List.range image.width).map (fun x =>
          spec_block_cell colormap (pixel colors (y * image.width + x))))) ∧
      ∀ k, k < image.width * image.height → ∃ index, colors[k]? = some (pixel colors k) ∧
        color_index (grey (pixel colors k)) colormap.length = .ok index ∧
        colormap[index]? = some (spec_color colormap (pixel colors k)) := by
  unfold print_color_image_fast Image.image_size at h
  cases hf : List.foldlM (print_color_image_fast_body colors colormap) []
      (List.range (image.width * image.height)) with
  | error e => rw [hf, error_bind] at h; exact absurd h (by simp)
  | ok pixels =>
    rw [hf, ok_bind] at h
    obtain ⟨hpix, hfact⟩ := print_color_image_fast_loop_exact colors colormap _ pixels hf
    obtain ⟨hcalls, hrows⟩ := put_lines_exact image pixels calls h
    refine ⟨?_, hfact⟩
    rw [hcalls]
    apply List.map_congr_left
    intro y hy
    rw [List.mem_range] at hy
    have hlen : pixels.length = image.width * image.height := by
      rw [hpix, List.length_map, List.length_range]
    have hb := hrows y hy
    rw [hlen] at hb
    rw [hpix, slice_range_map _ _ _ _ hb]

/-- A defined round of the walk of `print_color_ascii_fast` at a character that is not a
line break appends the cell of pixel `ci`: the character with background `AUTO` and the
computed colour of the pixel as foreground. -/
theorem print_color_ascii_fast_body_exact (colors : List RGBA) (colormap : List Color)
    (ci : ℕ) (acc : List WinPixel) (st2 : ℕ × List WinPixel) (ch : Char) (hch : ch ≠ LF)
    (h : print_color_ascii_fast_body colors colormap (ci, acc) ch = .ok st2) :
    st2 = (ci + 1,
        acc ++ [WinPixel.mk ch (COLORS.mk (spec_color colormap (pixel colors ci)) AUTO)]) ∧
      ∃ index, colors[ci]? = some (pixel colors ci) ∧
        color_index (grey (pixel colors ci)) colormap.length = .ok index ∧
        colormap[index]? = some (spec_color colormap (pixel colors ci)) := by
  unfold print_color_ascii_fast_body at h
  rw [if_neg hch] at h
  cases h1 : colors_at colors ci with
  | error e => simp only [h1] at h; rw [error_bind] at h; exact absurd h (by simp)
  | ok c =>
    simp only [h1] at h
    rw [ok_bind] at h
    cases h2 : color_index (grey c) colormap.length with
    | error e => rw [h2, error_bind] at h; exact absurd h (by simp)
    | ok index =>
      rw [h2, ok_bind] at h
      cases h3 : vector_at colormap index with
      | error e => rw [h3, error_bind] at h; exact absurd h (by simp)
      | ok color =>
        rw [h3, ok_bind] at h
        obtain ⟨hc, ha, hb, hd⟩ := sample_color_inv colors colormap ci c index color h1 h2 h3
        refine ⟨?_, index, ha, hb, hd⟩
        rw [← Except.ok.inj h, hc]

theorem cells_cons {α β : Type} (C : ℕ → β → α) (d ch : β) (g : List β) (ci : ℕ)
    (acc : List α) :
    (acc ++ [C ci ch]) ++ (List.range g.length).map (fun j => C (ci + 1 + j) (g.getD j d))
      = acc ++ (List.range (ch :: g).length).map (fun j => C (ci + j) ((ch :: g).getD j d)) := by
  rw [List.length_cons, List.range_succ_eq_map, List.map_cons, List.map_map,
    List.append_assoc, List.singleton_append]
  congr 2
  apply List.map_congr_left
  intro j _
  show C (ci + 1 + j) (g.getD j d) = C (ci + (j + 1)) ((ch :: g).getD (j + 1) d)
  rw [List.getD_cons_succ, Nat.add_assoc, Nat.add_comm 1 j]

/-- A defined walk of `print_color_ascii_fast` from pixel index `ci` has appended one
cell for each character of the text that is not a line break, in order: the `j`-th such
character with the computed colour of pixel `ci + j` as foreground. -/
theorem print_color_ascii_fast_walk_from (colors : List RGBA) (colormap : List Color) :
    ∀ (text : List Char) (ci : ℕ) (acc : List WinPixel) (res : ℕ × List WinPixel),
      text.foldlM (print_color_ascii_fast_body colors colormap) (ci, acc) = .ok res →
      res = (ci + (text.filter (fun ch => ch != LF)).length,
          acc ++ (List.range (text.filter (fun ch => ch != LF)).length).map (fun j =>
            WinPixel.mk ((text.filter (fun ch => ch != LF)).getD j NUL)
              (COLORS.mk (spec_color colormap (pixel colors (ci + j))) AUTO))) ∧
        ∀ j, j < (text.filter (fun ch => ch != LF)).length →
          ∃ index, colors[ci + j]? = some (pixel colors (ci + j)) ∧
            color_index (grey (pixel colors (ci + j))) colormap.length = .ok index ∧
            colormap[index]? = some (spec_color colormap (pixel colors (ci + j))) := by
  intro text
  induction text with
  | nil =>
    intro ci acc res h
    have h2 : (Except.ok (ci, acc) : Except Fault (ℕ × List WinPixel)) = .ok res := h
    rw [← Except.ok.inj h2]
    simp
  | cons ch t ih =>
    intro ci acc res h
    rw [List.foldlM_cons] at h
    by_cases hch : ch = LF
    · have hb : print_color_ascii_fast_body colors colormap (ci, acc) ch = .ok (ci, acc) := by
        unfold print_color_ascii_fast_body
        rw [if_pos hch]
        rfl
      rw [hb, ok_bind] at h
      have hf : (ch :: t).filter (fun ch => ch != LF) = t.filter (fun ch => ch != LF) := by
        rw [List.filter_cons, hch]
        simp
      rw [hf]
      exact ih ci acc res h
    · cases hb : print_color_ascii_fast_body colors colormap (ci, acc) ch with
      | error e => rw [hb, error_bind] at h; exact absurd h (by simp)
      | ok st2 =>
        rw [hb, ok_bind] at h
        obtain ⟨hst2, hfact⟩ :=
          print_color_ascii_fast_body_exact colors colormap ci acc st2 ch hch hb
        rw [hst2] at h
        obtain ⟨hres, hrest⟩ := ih (ci + 1) _ res h
        have hf : (ch :: t).filter (fun ch => ch != LF)
            = ch :: t.filter (fun ch => ch != LF) := by
          rw [List.filter_cons]
          simp [hch]
        rw [hf]
        constructor
        · have hl := cells_cons
            (fun i c => WinPixel.mk c (COLORS.mk (spec_color colormap (pixel colors i)) AUTO))
            NUL ch (t.filter (fun ch => ch != LF)) ci acc
          beta_reduce at hl
          have hn : ci + 1 + (t.filter (fun ch => ch != LF)).length
              = ci + (ch :: t.filter (fun ch => ch != LF)).length := by
            rw [List.length_cons]
            omega
          exact hres.trans (congrArg₂ Prod.mk hn hl)
        · intro j hj
          rw [List.length_cons] at hj
          cases j with
          | zero => exact hfact
          | succ j =>
            have := hrest j (by omega)
            rw [show ci + 1 + j = ci + (j + 1) by omega] at this
            exact this

/-- Every defined run of `print_color_ascii_fast` has built one cell for each character
of the text that is not a line break, the `k`-th such character with background `AUTO`
and the computed colour of pixel `k` as foreground, and has handed row `y` the `width`
cells from position `y * width` on. -/
theorem print_color_ascii_fast_exact (text : List Char) (colors : List RGBA) (image : Image)
    (colormap : List Color) (calls : List PutLine)
    (h : print_color_ascii_fast text colors image colormap = .ok calls) :
    calls = (List.range image.height).map (fun y => PutLine.mk 0 y
        ((((List.range (text.filter (fun ch => ch != LF)).length).map (fun k =>
          WinPixel.mk ((text.filter (fun ch => ch != LF)).getD k NUL)
            (COLORS.mk (spec_color colormap (pixel colors k)) AUTO))).drop
              (y * image.width)).take image.width)) ∧
      ∀ k, k < (text.filter (fun ch => ch != LF)).length →
        ∃ index, colors[k]? = some (pixel colors k) ∧
          color_index (grey (pixel colors k)) colormap.length = .ok index ∧
          colormap[index]? = some (spec_color colormap (pixel colors k)) := by
  unfold print_color_ascii_fast at h
  cases hf : print_color_ascii_fast_walk text colors colormap with
  | error e => rw [hf, error_bind] at h; exact absurd h (by simp)
  | ok st =>
    rw [hf, ok_bind] at h
    unfold print_color_ascii_fast_walk at hf
    obtain ⟨hst, hfact⟩ := print_color_ascii_fast_walk_from colors colormap text 0 [] st hf
    obtain ⟨hcalls, _⟩ := put_lines_exact image st.2 calls h
    constructor
    · rw [hcalls, hst]
      simp only [List.nil_append, Nat.zero_add]
    · intro k hk
      have := hfact k hk
      simp only [Nat.zero_add] at this
      exact this

/-- Whatever the sizes, a cell that one of the row-batched colour renderers has emitted
carries `AUTO` on one side and an entry of the ramp on the other. -/
theorem cell_colours_invariant (colormap : List Color)
    (hcm : colormap = Asciimage.DEFAULT_COLOR_MAP ∨
      ∃ s : List Char, (∀ ch ∈ s, palette_digit ch) ∧ colormap = decode_colormap s)
    (image : Image) (colors : List RGBA) (text : List Char) :
    (∀ calls, print_color_image_fast image colors colormap = .ok calls →
      ∀ line ∈ calls, ∀ p ∈ line.cells,
        p.colors.fore = AUTO ∧ p.colors.back ∈ colormap ∧
          0 ≤ p.colors.back ∧ p.colors.back ≤ 15 ∧ p.colors.back ≠ AUTO) ∧
    (∀ calls, print_color_ascii_fast text colors image colormap = .ok calls →
      ∀ line ∈ calls, ∀ p ∈ line.cells,
        p.colors.back = AUTO ∧ p.colors.fore ∈ colormap ∧
          0 ≤ p.colors.fore ∧ p.colors.fore ≤ 15 ∧ p.colors.fore ≠ AUTO) := by
  have hpal := program_ramp_palette colormap hcm
  have hauto : ∀ color : Color, 0 ≤ color ∧ color ≤ 15 → color ≠ AUTO := by
    intro color hc h
    rw [h] at hc
    exact absurd hc.2 (by decide)
  constructor
  · intro calls h line hline p hp
    unfold print_color_image_fast at h
    cases hf : List.foldlM (print_color_image_fast_body colors colormap) []
        (List.range image.image_size) with
    | error e => rw [hf, error_bind] at h; exact absurd h (by simp)
    | ok pixels =>
      rw [hf, ok_bind] at h
      have hinv := foldlM_invariant (print_color_image_fast_body colors colormap)
        (fun pixels => ∀ p ∈ pixels, p.colors.fore = AUTO ∧ p.colors.back ∈ colormap)
        (by
          intro s a s2 hs hstep q hq
          obtain ⟨color, hmem, hs2⟩ := print_color_image_fast_body_inv colors colormap s s2 a hstep
          rw [hs2, List.mem_append, List.mem_singleton] at hq
          rcases hq with hq | hq
          · exact hs q hq
          · rw [hq]; exact ⟨rfl, hmem⟩)
        (List.range image.image_size) [] pixels (by simp) hf
      obtain ⟨h1, h2⟩ := hinv p (put_lines_mem image pixels calls h line hline p hp)
      exact ⟨h1, h2, (hpal _ h2).1, (hpal _ h2).2, hauto _ (hpal _ h2)⟩
  · intro calls h line hline p hp
    unfold print_color_ascii_fast at h
    cases hf : print_color_ascii_fast_walk text colors colormap with
    | error e => rw [hf, error_bind] at h; exact absurd h (by simp)
    | ok st =>
      rw [hf, ok_bind] at h
      have hinv := foldlM_invariant (print_color_ascii_fast_body colors colormap)
        (fun st => ∀ p ∈ st.2, p.colors.back = AUTO ∧ p.colors.fore ∈ colormap)
        (by
          intro s a s2 hs hstep q hq
          rcases print_color_ascii_fast_body_inv colors colormap s s2 a hstep with
            hs2 | ⟨color, hmem, hs2⟩
          · rw [hs2] at hq; exact hs q hq
          · rw [hs2, List.mem_append, List.mem_singleton] at hq
            rcases hq with hq | hq
            · exact hs q hq
            · rw [hq]; exact ⟨rfl, hmem⟩)
        text (0, []) st (by simp) hf
      obtain ⟨h1, h2⟩ := hinv p (put_lines_mem image st.2 calls h line hline p hp)
      exact ⟨h1, h2, (hpal _ h2).1, (hpal _ h2).2, hauto _ (hpal _ h2)⟩

/-- C7: for the default colour ramp of `asciimage.cpp` and for the decoding of every
colour-map string made of the characters `0..9` and `A..F`. Every defined run of
`print_color_image_fast` has emitted exactly the rows in which the cell of row `y`, column
`x` is a space with foreground `AUTO` and as background the computed palette colour of
pixel `y * width + x`. Every defined run of `print_color_ascii_fast` has built one cell for
each character of the text that is not a line break, the `k`-th such character with
background `AUTO` and as foreground the computed palette colour of pixel `k`, and has
emitted these cells in rows of `width`. The computed palette colour of pixel `k` is the
entry of the ramp at the index that `color_index` computes from the luminance of
`colors[k]`; it is a palette entry `0..15` and not `AUTO`. The runs are defined for every
grid of width at least `1` and every ramp of `1` to `2^23` entries (in `ASCOL` mode on the
text that `ascii_image` produces from a glyph ramp of `1` to `256` glyphs without line
break, where the cell of row `y`, column `x` carries the glyph and the computed palette
colour of pixel `y * width + x`). -/
theorem C7_cell_colours (colormap : List Color)
    (hcm : colormap = Asciimage.DEFAULT_COLOR_MAP ∨
      ∃ s : List Char, (∀ ch ∈ s, palette_digit ch) ∧ colormap = decode_colormap s)
    (image : Image) (colors : List RGBA) :
    (∀ calls, print_color_image_fast image colors colormap = .ok calls →
      calls = (List.range image.height).map (fun y => PutLine.mk 0 y
          ((List.range image.width).map (fun x =>
            WinPixel.mk ' ' (COLORS.mk AUTO
              (spec_color colormap (pixel colors (y * image.width + x))))))) ∧
      (∀ k, k < image.width * image.height →
        ∃ index, colors[k]? = some (pixel colors k) ∧
          color_index (grey (pixel colors k)) colormap.length = .ok index ∧
          colormap[index]? = some (spec_color colormap (pixel colors k)) ∧
          0 ≤ spec_color colormap (pixel colors k) ∧
          spec_color colormap (pixel colors k) ≤ 15 ∧
          spec_color colormap (pixel colors k) ≠ AUTO) ∧
      ∀ line ∈ calls, ∀ p ∈ line.cells,
        p.colors.fore = AUTO ∧ p.colors.back ∈ colormap ∧
          0 ≤ p.colors.back ∧ p.colors.back ≤ 15 ∧ p.colors.back ≠ AUTO) ∧
    (∀ text calls, print_color_ascii_fast text colors image colormap = .ok calls →
      calls = (List.range image.height).map (fun y => PutLine.mk 0 y
          ((((List.range (text.filter (fun ch => ch != LF)).length).map (fun k =>
            WinPixel.mk ((text.filter (fun ch => ch != LF)).getD k NUL)
              (COLORS.mk (spec_color colormap (pixel colors k)) AUTO))).drop
                (y * image.width)).take image.width)) ∧
      (∀ k, k < (text.filter (fun ch => ch != LF)).length →
        ∃ index, colors[k]? = some (pixel colors k) ∧
          color_index (grey (pixel colors k)) colormap.length = .ok index ∧
          colormap[index]? = some (spec_color colormap (pixel colors k)) ∧
          0 ≤ spec_color colormap (pixel colors k) ∧
          spec_color colormap (pixel colors k) ≤ 15 ∧
          spec_color colormap (pixel colors k) ≠ AUTO) ∧
      ∀ line ∈ calls, ∀ p ∈ line.cells,
        p.colors.back = AUTO ∧ p.colors.fore ∈ colormap ∧
          0 ≤ p.colors.fore ∧ p.colors.fore ≤ 15 ∧ p.colors.fore ≠ AUTO) ∧
    (1 ≤ image.width → colors.length = image.width * image.height →
      1 ≤ colormap.length → colormap.length ≤ 8388608 →
      (∃ calls, print_color_image_fast image colors colormap = .ok calls) ∧
      ∀ ascii_map : List Char, 1 ≤ ascii_map.length → ascii_map.length ≤ 256 →
        LF ∉ ascii_map →
        ∃ text calls, ascii_image image colors ascii_map = .ok text ∧
          print_color_ascii_fast text colors image colormap = .ok calls ∧
          calls = (List.range image.height).map (fun y => PutLine.mk 0 y
            ((List.range image.width).map (fun x =>
              WinPixel.mk (spec_glyph ascii_map (pixel colors (y * image.width + x)))
                (COLORS.mk (spec_color colormap (pixel colors (y * image.width + x)))
                  AUTO))))) := by
  have hpal := program_ramp_palette colormap hcm
  have hauto : ∀ color : Color, 0 ≤ color ∧ color ≤ 15 → color ≠ AUTO := by
    intro color hc h
    rw [h] at hc
    exact absurd hc.2 (by decide)
  have hfacts : ∀ k, (∃ index, colors[k]? = some (pixel colors k) ∧
        color_index (grey (pixel colors k)) colormap.length = .ok index ∧
        colormap[index]? = some (spec_color colormap (pixel colors k))) →
      ∃ index, colors[k]? = some (pixel colors k) ∧
        color_index (grey (pixel colors k)) colormap.length = .ok index ∧
        colormap[index]? = some (spec_color colormap (pixel colors k)) ∧
        0 ≤ spec_color colormap (pixel colors k) ∧
        spec_color colormap (pixel colors k) ≤ 15 ∧
        spec_color colormap (pixel colors k) ≠ AUTO := by
    intro k hk
    obtain ⟨index, ha, hb, hc⟩ := hk
    have hmem : spec_color colormap (pixel colors k) ∈ colormap := List.getElem?_mem hc
    exact ⟨index, ha, hb, hc, (hpal _ hmem).1, (hpal _ hmem).2, hauto _ (hpal _ hmem)⟩
  refine ⟨?_, ?_, ?_⟩
  · intro calls h
    obtain ⟨hcalls, hfact⟩ := print_color_image_fast_exact image colors colormap calls h
    unfold spec_block_cell at hcalls
    exact ⟨hcalls, fun k hk => hfacts k (hfact k hk),
      (cell_colours_invariant colormap hcm image colors []).1 calls h⟩
  · intro text calls h
    obtain ⟨hcalls, hfact⟩ := print_color_ascii_fast_exact text colors image colormap calls h
    exact ⟨hcalls, fun k hk => hfacts k (hfact k hk),
      (cell_colours_invariant colormap hcm image colors text).2 calls h⟩
  · intro hw hlen h1 hn
    refine ⟨⟨_, print_color_image_fast_eq image colors colormap hw hlen h1 hn⟩, ?_⟩
    intro ascii_map g1 g256 hLF
    have hwalk := walk_with_breaks image.width colors ascii_map colormap h1 hn hLF
      (image.width * image.height) (by omega)
    unfold spec_tint_cell at hwalk
    refine ⟨_, _, ascii_image_eq image colors ascii_map hw hlen g1 g256, ?_, rfl⟩
    unfold print_color_ascii_fast
    rw [hwalk, ok_bind]
    exact put_lines_eq image (fun k => WinPixel.mk (spec_glyph ascii_map (pixel colors k))
      (COLORS.mk (spec_color colormap (pixel colors k)) AUTO)) hw

/-- C7 at the `2 x 2` grid with luminances `0, 128, 255, 64` and the decoding
`[0, 1, 9, 3, 11, 15]` of the colour-map string `0193BF`: the ramp indices of the four
pixels are `0, 2, 5, 1`, so the block-colour run emits the backgrounds `0, 9, 15, 1`
under foreground `AUTO`, and the run on the text `AA\nBA` that `ascii_image` produces from
the glyph ramp `AB` emits the foregrounds `0, 9, 15, 1` over background `AUTO`. -/
theorem C7_cell_colours_witness :
    print_color_image_fast (Image.mk 2 2)
        [RGBA.mk 0 0 0 255, RGBA.mk 128 128 128 255, RGBA.mk 255 255 255 255,
          RGBA.mk 64 64 64 255] (decode_colormap ['0', '1', '9', '3', 'B', 'F'])
      = .ok [PutLine.mk 0 0 [WinPixel.mk ' ' (COLORS.mk AUTO 0),
                WinPixel.mk ' ' (COLORS.mk AUTO 9)],
             PutLine.mk 0 1 [WinPixel.mk ' ' (COLORS.mk AUTO 15),
                WinPixel.mk ' ' (COLORS.mk AUTO 1)]] ∧
    ascii_image (Image.mk 2 2)
        [RGBA.mk 0 0 0 255, RGBA.mk 128 128 128 255, RGBA.mk 255 255 255 255,
          RGBA.mk 64 64 64 255] ['A', 'B'] = .ok ['A', 'A', LF, 'B', 'A'] ∧
    print_color_ascii_fast ['A', 'A', LF, 'B', 'A']
        [RGBA.mk 0 0 0 255, RGBA.mk 128 128 128 255, RGBA.mk 255 255 255 255,
          RGBA.mk 64 64 64 255] (Image.mk 2 2)
        (decode_colormap ['0', '1', '9', '3', 'B', 'F'])
      = .ok [PutLine.mk 0 0 [WinPixel.mk 'A' (COLORS.mk 0 AUTO),
                WinPixel.mk 'A' (COLORS.mk 9 AUTO)],
             PutLine.mk 0 1 [WinPixel.mk 'B' (COLORS.mk 15 AUTO),
                WinPixel.mk 'A' (COLORS.mk 1 AUTO)]] := by
  obtain ⟨hcolor, hascol, hdef⟩ := C7_cell_colours
    (decode_colormap ['0', '1', '9', '3', 'B', 'F'])
    (Or.inr ⟨['0', '1', '9', '3', 'B', 'F'], by decide, rfl⟩) (Image.mk 2 2)
    [RGBA.mk 0 0 0 255, RGBA.mk 128 128 128 255, RGBA.mk 255 255 255 255,
      RGBA.mk 64 64 64 255]
  obtain ⟨⟨calls, hc⟩, hdef2⟩ := hdef (by decide) (by decide) (by decide) (by decide)
  obtain ⟨text, calls2, ht, hc2, _⟩ := hdef2 ['A', 'B'] (by decide) (by decide) (by decide)
  have htext : text = ['A', 'A', LF, 'B', 'A'] :=
    Except.ok.inj (ht.symm.trans ascii_image_scenario)
  rw [htext] at hc2
  refine ⟨?_, ascii_image_scenario, ?_⟩
  · rw [hc, (hcolor calls hc).1]
    simp only [spec_color_eq (decode_colormap ['0', '1', '9', '3', 'B', 'F']) (by decide)
      (by decide)]
    exact congrArg Except.ok (by decide)
  · rw [hc2, (hascol _ calls2 hc2).1]
    simp only [spec_color_eq (decode_colormap ['0', '1', '9', '3', 'B', 'F']) (by decide)
      (by decide)]
    exact congrArg Except.ok (by decide)

theorem main_color (args : List (List Char)) (image : Image) (colors : List RGBA)
    (colormap : List Color) (h : Asciimage.main_plan args = .ok (Plan.color colormap)) :
    Asciimage.main args image colors
      = (do
          let calls ← print_color_image_fast image colors colormap
          pure (Output.lines calls)) := by
  unfold Asciimage.main
  rw [h]
  rfl

theorem main_ascii (args : List (List Char)) (image : Image) (colors : List RGBA)
    (ascii_map : List Char) (h : Asciimage.main_plan args = .ok (Plan.ascii ascii_map)) :
    Asciimage.main args image colors
      = (do
          let ascii_output ← ascii_image image colors ascii_map
          pure (Output.text ascii_output)) := by
  unfold Asciimage.main
  rw [h]
  rfl

/-- C7 fails as stated for the colour-map string `@`: `'@' - '0'` is `16`, the value of
`AUTO`, so the ramp the program builds is `[AUTO]`, and the run
`asciimage image.jpg COLOR @` on a one-pixel image emits a cell whose foreground and
background are both `AUTO`. -/
theorem C7_counterexample :
    decode_colormap ['@'] = [AUTO] ∧
      Asciimage.main ["image.jpg".toList, "COLOR".toList, "@".toList] (Image.mk 1 1)
          [RGBA.mk 0 0 0 255]
        = .ok (Output.lines [PutLine.mk 0 0 [WinPixel.mk ' ' (COLORS.mk AUTO AUTO)]]) := by
  constructor
  · decide
  · rw [main_color ["image.jpg".toList, "COLOR".toList, "@".toList] _ _ [AUTO] rfl,
      print_color_image_fast_single, grey_black,
      color_index_zero, ok_bind]
    rfl

/-! ## C8, C9: the choice of mode and maps in `main` -/

/-- C8, on the invocation the help text documents,
`asciimage image.jpg ASCOL " ._-oa3O@" 0193BF`: both programs decode the colour ramp from
`str_args[2]`, the first map argument, and take the glyph ramp from `str_args[3]`, the
second. The glyph ramp of the run is `0193BF` and the colour ramp is the decoding of
`" ._-oa3O@"`, the reverse of what the help text states. -/
theorem C8_ascol_map_order :
    Asciimage.main_plan
        ["image.jpg".toList, "ASCOL".toList, " ._-oa3O@".toList, "0193BF".toList]
      = .ok (Plan.ascol "0193BF".toList (decode_colormap " ._-oa3O@".toList)) ∧
    AsciimageLoop.main_plan
        ["image.jpg".toList, "ASCOL".toList, " ._-oa3O@".toList, "0193BF".toList]
      = .ok (Plan.ascol "0193BF".toList (decode_colormap " ._-oa3O@".toList)) ∧
    decode_colormap " ._-oa3O@".toList = [-16, -2, 47, -3, 63, 49, 3, 31, 16] ∧
    "0193BF".toList ≠ " ._-oa3O@".toList :=
  ⟨rfl, rfl, by decide, by decide⟩

/-- C9, on the invocation `asciimage image.jpg` (the input path alone): both programs
store `"ASCII"` in `str_args[1]`, one slot past the array of one string, and then take
the glyph ramp from `str_args[2]`, because the test for the default is `argc == 2` and
`argc` is `1`: the run reads an argument position that was not supplied and the glyph
ramp is not `" ._-3#@"`. -/
theorem C9_path_only_reads_unsupplied :
    Asciimage.main_plan ["image.jpg".toList] = .error (Fault.argOutOfRange 2) ∧
    AsciimageLoop.main_plan ["image.jpg".toList] = .error (Fault.argOutOfRange 2) :=
  ⟨rfl, rfl⟩

/-- The defaults that hold: with a mode and no map argument the glyph ramp is
`" ._-3#@"` and the colour ramp is the default colour ramp of the program; with `ASCOL`
and one map argument the glyph ramp is `" ._-3#@"`. No argument position is read that was
not supplied. -/
theorem main_plan_defaults (path map1 : List Char)
    (hp : path ≠ "-h".toList ∧ path ≠ "--help".toList)
    (hm : map1 ≠ "-h".toList ∧ map1 ≠ "--help".toList) :
    Asciimage.main_plan [path, "ASCII".toList] = .ok (Plan.ascii DEFAULT_ASCII) ∧
    Asciimage.main_plan [path, "COLOR".toList] = .ok (Plan.color Asciimage.DEFAULT_COLOR_MAP) ∧
    Asciimage.main_plan [path, "ASCOL".toList]
      = .ok (Plan.ascol DEFAULT_ASCII Asciimage.DEFAULT_COLOR_MAP) ∧
    Asciimage.main_plan [path, "ASCOL".toList, map1]
      = .ok (Plan.ascol DEFAULT_ASCII (decode_colormap map1)) ∧
    AsciimageLoop.main_plan [path, "ASCII".toList] = .ok (Plan.ascii DEFAULT_ASCII) ∧
    AsciimageLoop.main_plan [path, "COLOR".toList]
      = .ok (Plan.color AsciimageLoop.DEFAULT_COLOR_MAP) ∧
    AsciimageLoop.main_plan [path, "ASCOL".toList]
      = .ok (Plan.ascol DEFAULT_ASCII AsciimageLoop.DEFAULT_COLOR_MAP) ∧
    AsciimageLoop.main_plan [path, "ASCOL".toList, map1]
      = .ok (Plan.ascol DEFAULT_ASCII (decode_colormap map1)) ∧
    DEFAULT_ASCII = " ._-3#@".toList := by
  have h1 : "-h".toList = ['-', 'h'] := rfl
  have h2 : "--help".toList = ['-', '-', 'h', 'e', 'l', 'p'] := rfl
  rw [h1, h2] at hp hm
  have hs2 : ∀ mode : List Char, mode ≠ ['-', 'h'] → mode ≠ ['-', '-', 'h', 'e', 'l', 'p'] →
      str_args_of [path, mode] = some [path, mode] := by
    intro mode hm1 hm2
    simp [str_args_of, hp.1, hp.2, hm1, hm2]
  have hs3 : ∀ mode : List Char, mode ≠ ['-', 'h'] → mode ≠ ['-', '-', 'h', 'e', 'l', 'p'] →
      str_args_of [path, mode, map1] = some [path, mode, map1] := by
    intro mode hm1 hm2
    simp [str_args_of, hp.1, hp.2, hm1, hm2, hm.1, hm.2]
  refine ⟨?_, ?_, ?_, ?_, ?_, ?_, ?_, ?_, rfl⟩
  · unfold Asciimage.main_plan
    rw [hs2 _ (by decide) (by decide)]
    rfl
  · unfold Asciimage.main_plan
    rw [hs2 _ (by decide) (by decide)]
    rfl
  · unfold Asciimage.main_plan
    rw [hs2 _ (by decide) (by decide)]
    rfl
  · unfold Asciimage.main_plan
    rw [hs3 _ (by decide) (by decide)]
    rfl
  · unfold AsciimageLoop.main_plan
    rw [hs2 _ (by decide) (by decide)]
    rfl
  · unfold AsciimageLoop.main_plan
    rw [hs2 _ (by decide) (by decide)]
    rfl
  · unfold AsciimageLoop.main_plan
    rw [hs2 _ (by decide) (by decide)]
    rfl
  · unfold AsciimageLoop.main_plan
    rw [hs3 _ (by decide) (by decide)]
    rfl

/-! ## C10: empty ramps -/

theorem loop_main_color (args : List (List Char)) (image : Image) (colors : List RGBA)
    (colormap : List Color) (h : AsciimageLoop.main_plan args = .ok (Plan.color colormap)) :
    AsciimageLoop.main args image colors
      = (do
          let ops ← print_color_image image colors colormap
          pure (Output.console ops)) := by
  unfold AsciimageLoop.main
  rw [h]
  rfl

theorem print_color_image_single (c : RGBA) (colormap : List Color) :
    print_color_image (Image.mk 1 1) [c] colormap
      = (do
          let index ← color_index (grey c) colormap.length
          let color ← vector_at colormap index
          pure [ConsoleOp.put ' ' (COLORS.mk AUTO color)]) := by
  have hr : List.range (Image.mk 1 1).image_size = [0] := by decide
  have hc : colors_at [c] 0 = .ok c := rfl
  unfold print_color_image
  rw [hr]
  simp only [List.foldlM_cons, List.foldlM_nil, print_color_image_body]
  rw [hc, ok_bind]
  cases h1 : color_index (grey c) colormap.length with
  | error e => rfl
  | ok i =>
    rw [ok_bind, ok_bind]
    cases h2 : vector_at colormap i with
    | error e => rfl
    | ok color => rfl

/-- C10, on the invocations `asciimage image.jpg COLOR ""` and `asciimage image.jpg ASCII ""`
with a one-pixel black image: no run is rejected. With the empty colour ramp both programs
enter the renderer, compute index `0` and read entry `0` of the empty ramp, which leaves
defined behaviour; with the empty glyph ramp `ascii_image` runs, reads position `0` of the
empty string and produces one glyph, the terminator of the string. -/
theorem C10_empty_ramp_not_rejected :
    Asciimage.main ["image.jpg".toList, "COLOR".toList, "".toList] (Image.mk 1 1)
        [RGBA.mk 0 0 0 255] = .error (Fault.vectorOutOfRange 0) ∧
    AsciimageLoop.main ["image.jpg".toList, "COLOR".toList, "".toList] (Image.mk 1 1)
        [RGBA.mk 0 0 0 255] = .error (Fault.vectorOutOfRange 0) ∧
    Asciimage.main ["image.jpg".toList, "ASCII".toList, "".toList] (Image.mk 1 1)
        [RGBA.mk 0 0 0 255] = .ok (Output.text [NUL]) := by
  refine ⟨?_, ?_, ?_⟩
  · rw [main_color ["image.jpg".toList, "COLOR".toList, "".toList] _ _ [] rfl,
      print_color_image_fast_single, grey_black, color_index_zero, ok_bind]
    rfl
  · rw [loop_main_color ["image.jpg".toList, "COLOR".toList, "".toList] _ _ [] rfl,
      print_color_image_single, grey_black, color_index_zero, ok_bind]
    rfl
  · rw [main_ascii ["image.jpg".toList, "ASCII".toList, "".toList] _ _ [] rfl,
      ascii_image_single, grey_black, glyph_index_zero, ok_bind]
    rfl

/-! ## C11: the luminance lies between the least and the greatest channel -/

/-- C11: for every RGBA sample, `max_value()` is the largest and `min_value()` the smallest
of the red, green and blue channels (each is one of the three and bounds all three), the
luminance stored in `byte grey` is `(max_value + min_value) / 2` with the sum taken as
`int` (no 8-bit wrap-around, and storing the quotient in a byte changes nothing), and it
satisfies `min_value <= grey <= max_value`, hence `0 <= grey <= 255`. -/
theorem C11_grey_between (c : RGBA) :
    (c.r ≤ c.max_value ∧ c.g ≤ c.max_value ∧ c.b ≤ c.max_value ∧
      (c.max_value = c.r ∨ c.max_value = c.g ∨ c.max_value = c.b)) ∧
    (c.min_value ≤ c.r ∧ c.min_value ≤ c.g ∧ c.min_value ≤ c.b ∧
      (c.min_value = c.r ∨ c.min_value = c.g ∨ c.min_value = c.b)) ∧
    grey c = (c.max_value.val + c.min_value.val) / 2 ∧
    c.min_value.val ≤ grey c ∧ grey c ≤ c.max_value.val ∧
    0 ≤ grey c ∧ grey c ≤ 255 := by
  have hmax : c.r ≤ c.max_value ∧ c.g ≤ c.max_value ∧ c.b ≤ c.max_value ∧
      (c.max_value = c.r ∨ c.max_value = c.g ∨ c.max_value = c.b) := by
    unfold RGBA.max_value
    split_ifs with h1 h2 h3
    · exact ⟨le_refl _, le_of_lt h1, le_of_lt h2, Or.inl rfl⟩
    · exact ⟨not_lt.mp h2, le_trans (le_of_lt h1) (not_lt.mp h2), le_refl _, Or.inr (Or.inr rfl)⟩
    · exact ⟨not_lt.mp h1, le_refl _, le_of_lt h3, Or.inr (Or.inl rfl)⟩
    · exact ⟨le_trans (not_lt.mp h1) (not_lt.mp h3), not_lt.mp h3, le_refl _,
        Or.inr (Or.inr rfl)⟩
  have hmin : c.min_value ≤ c.r ∧ c.min_value ≤ c.g ∧ c.min_value ≤ c.b ∧
      (c.min_value = c.r ∨ c.min_value = c.g ∨ c.min_value = c.b) := by
    unfold RGBA.min_value
    split_ifs with h1 h2 h3
    · exact ⟨le_refl _, le_of_lt h1, le_of_lt h2, Or.inl rfl⟩
    · exact ⟨not_lt.mp h2, le_trans (not_lt.mp h2) (le_of_lt h1), le_refl _,
        Or.inr (Or.inr rfl)⟩
    · exact ⟨not_lt.mp h1, le_refl _, le_of_lt h3, Or.inr (Or.inl rfl)⟩
    · exact ⟨le_trans (not_lt.mp h3) (not_lt.mp h1), not_lt.mp h3, le_refl _,
        Or.inr (Or.inr rfl)⟩
  have hle : c.min_value.val ≤ c.max_value.val := Fin.le_def.mp (le_trans hmin.1 hmax.1)
  have hlt : c.max_value.val < 256 := c.max_value.isLt
  have hg : grey c = (c.max_value.val + c.min_value.val) / 2 := by
    unfold grey
    omega
  refine ⟨hmax, hmin, hg, ?_, ?_, Nat.zero_le _, ?_⟩
  · rw [hg]; omega
  · rw [hg]; omega
  · rw [hg]; omega

/-! ## C12: which luminance selects the last entry of a ramp -/

theorem quotient_eq_last_iff (v m : ℕ) (hv : v ≤ 255) (hm : 1 ≤ m) :
    v * m / 255 = m ↔ v = 255 := by
  constructor
  · intro h
    by_contra hne
    have hv2 : v ≤ 254 := by omega
    have h1 : v * m ≤ 254 * m := Nat.mul_le_mul_right m hv2
    have h2 : v * m / 255 < m := by
      apply Nat.div_lt_of_lt_mul
      omega
    omega
  · intro h
    rw [h]
    exact Nat.mul_div_cancel_left m (by norm_num)

/-- C12: for every ramp length `n` with `2 <= n <= 256` and every luminance `v` in
`[0, 255]`, the index obtained by truncating `map(v, 0, 255, 0, n - 1)`, as the colour
renderers compute it with `size_t` and as `ascii_image` computes it with `byte`, is the
integer quotient `v * (n - 1) / 255`, and it equals `n - 1` if and only if `v = 255`: the
last entry of a ramp is selected only at luminance exactly `255`. Luminance `0` selects
entry `0`. -/
theorem C12_last_entry_iff (v n : ℕ) (hv : v ≤ 255) (h2 : 2 ≤ n) (hn : n ≤ 256) :
    ∃ i, color_index v n = .ok i ∧ glyph_index v n = .ok i ∧ map_index v n = i ∧
      i = v * (n - 1) / 255 ∧ (i = n - 1 ↔ v = 255) ∧
      color_index 0 n = .ok 0 ∧ glyph_index 0 n = .ok 0 := by
  refine ⟨v * (n - 1) / 255, color_index_eq v n hv (by omega) (by omega),
    glyph_index_small v n hv (by omega) hn, map_index_eq v n hv (by omega) (by omega), rfl,
    quotient_eq_last_iff v (n - 1) hv (by omega), color_index_zero n, glyph_index_zero n⟩

/-- C12 at the default glyph ramp length `7`: luminance `255` selects entry `6`, the
last. -/
theorem C12_last_entry_iff_witness :
    ∃ i, color_index 255 7 = .ok i ∧ glyph_index 255 7 = .ok i ∧ map_index 255 7 = i ∧
      i = 255 * (7 - 1) / 255 ∧ (i = 7 - 1 ↔ 255 = 255) ∧
      color_index 0 7 = .ok 0 ∧ glyph_index 0 7 = .ok 0 :=
  C12_last_entry_iff 255 7 (by norm_num) (by norm_num) (by norm_num)

end ASCIIMage
